import Mathlib

/-!
Verification development for the ClaimGuard claims-validation core.

Shallow embedding of the Python source:
  - src/validator.py     : ClaimValidator (rule engine, batch validation)
  - src/ai_cache.py      : AICache (TTL + LRU explanation cache) and
                           BatchProcessor (cache-or-generate batch driver)

Modelling conventions, fixed once here:
  - Python dicts are embedded as insertion-ordered association lists
    (`List (K × V)`) with `dictGet` / `dictSet` / `dictErase` mirroring
    `d[k]`, `d[k] = v` (in-place overwrite keeps position) and `del d[k]`.
  - `list.remove(x)` is `listErase` (removes the first occurrence).
  - Wall-clock instants (`time.time()`, `datetime.now()`) are rationals
    passed in explicitly; machine floats are embedded as `ℚ`.
  - Python `round(x, n)` (round half to even) is `pyRound` / `roundTo`.
  - The md5-of-canonical-JSON cache key of `_create_cache_key` is embedded
    as the normalized 7-field record itself (an injective fingerprint of
    exactly the fields the source serializes); the spec treats hash
    collisions as out of scope, so none of the claims depend on hashing.
-/

set_option linter.unusedVariables false

/-- Lookup in an insertion-ordered association list, mirroring Python
`d.get(k)` / `k in d` followed by `d[k]`. -/
def dictGet {K V : Type} [DecidableEq K] : List (K × V) → K → Option V
  | [], _ => none
  | (k', v) :: rest, k => if k' = k then some v else dictGet rest k

/-- Assignment `d[k] = v` on an insertion-ordered dict: an existing key keeps
its position and gets the new value, a new key is appended at the end. -/
def dictSet {K V : Type} [DecidableEq K] : List (K × V) → K → V → List (K × V)
  | [], k, v => [(k, v)]
  | (k', v') :: rest, k, v =>
      if k' = k then (k', v) :: rest else (k', v') :: dictSet rest k v

/-- Deletion `del d[k]`: removes the first (in a well-formed dict, the only)
entry with the given key. -/
def dictErase {K V : Type} [DecidableEq K] : List (K × V) → K → List (K × V)
  | [], _ => []
  | (k', v') :: rest, k =>
      if k' = k then rest else (k', v') :: dictErase rest k

/-- Python `list.remove(x)`: removes the first occurrence of `x`. -/
def listErase {K : Type} [DecidableEq K] : List K → K → List K
  | [], _ => []
  | x :: rest, k => if x = k then rest else x :: listErase rest k

/-- Python `round` to an integer: round half to even (banker's rounding). -/
def pyRound (q : ℚ) : ℤ :=
  let f := ⌊q⌋
  let r := q - f
  if r < 1/2 then f
  else if 1/2 < r then f + 1
  else if Even f then f else f + 1

/-- Python `round(x, digits)` on a rational. -/
def roundTo (q : ℚ) (digits : ℕ) : ℚ :=
  (pyRound (q * 10 ^ digits) : ℚ) / 10 ^ digits

/-! ## Validator (src/validator.py) -/

/-- One row of the claims DataFrame (columns as produced by
generate_dataset.py and consumed by the validation rules). -/
structure Claim where
  claim_id : Int
  patient_id : String
  age : Int
  gender : String
  cpt_code : String
  diagnosis_code : String
  service_date : String
  provider_id : String
  charge_amount : ℚ
deriving DecidableEq

/-- Result of a single validation check (dataclass ValidationResult). -/
structure ValidationResult where
  claim_id : String
  error_type : String
  severity : String
  description : String
  recommendation : String
  confidence : ℚ
deriving DecidableEq

namespace ClaimValidator

/-- Rule 1: gender-procedure mismatches (validate_gender_procedure). -/
def validate_gender_procedure (claim : Claim) : List ValidationResult :=
  let female_only_procedures := ["59400", "58150", "76801", "81025"]
  let male_only_procedures := ["55700", "55250", "54150"]
  let gender := claim.gender
  let cpt_code := claim.cpt_code
  let claim_id := toString claim.claim_id
  (if gender = "M" ∧ cpt_code ∈ female_only_procedures then
    [{ claim_id := claim_id
       error_type := "Gender-Procedure Mismatch"
       severity := "HIGH"
       description := s!"Male patient assigned female-only procedure {cpt_code}"
       recommendation := "Verify patient gender or correct procedure code"
       confidence := 0.95 }]
  else []) ++
  (if gender = "F" ∧ cpt_code ∈ male_only_procedures then
    [{ claim_id := claim_id
       error_type := "Gender-Procedure Mismatch"
       severity := "HIGH"
       description := s!"Female patient assigned male-only procedure {cpt_code}"
       recommendation := "Verify patient gender or correct procedure code"
       confidence := 0.95 }]
  else [])

/-- Rule 2: age-procedure mismatches (validate_age_procedure). -/
def validate_age_procedure (claim : Claim) : List ValidationResult :=
  let adult_only_procedures := ["55700", "77067", "45378", "99397"]
  let pediatric_only_procedures := ["90460", "99381", "99382"]
  let age := claim.age
  let cpt_code := claim.cpt_code
  let claim_id := toString claim.claim_id
  (if age < 18 ∧ cpt_code ∈ adult_only_procedures then
    [{ claim_id := claim_id
       error_type := "Age-Procedure Mismatch"
       severity := "HIGH"
       description := s!"Patient age {age} inappropriate for adult procedure {cpt_code}"
       recommendation := "Verify patient age or select age-appropriate procedure"
       confidence := 0.90 }]
  else []) ++
  (if age ≥ 18 ∧ cpt_code ∈ pediatric_only_procedures then
    [{ claim_id := claim_id
       error_type := "Age-Procedure Mismatch"
       severity := "MEDIUM"
       description := s!"Adult patient (age {age}) assigned pediatric procedure {cpt_code}"
       recommendation := "Consider adult-equivalent procedure code"
       confidence := 0.85 }]
  else [])

/-- Body-part → procedure-code table of validate_anatomical_logic, in source
(dict-insertion) order. -/
def body_procedures : List (String × List String) :=
  [("knee", ["29827", "27447", "27486"]),
   ("shoulder", ["29826", "23472", "29807"]),
   ("foot", ["28285", "28296", "28306"])]

/-- Body-part → diagnosis-code table of validate_anatomical_logic. -/
def body_diagnoses : List (String × List String) :=
  [("knee", ["M25.561", "M17.11", "S83.511A"]),
   ("shoulder", ["M25.511", "M75.30", "S43.006A"]),
   ("foot", ["M25.571", "M21.371", "S92.001A"])]

/-- Rule 3: anatomical procedure-diagnosis mismatches
(validate_anatomical_logic).  The first-matching-body-part loops become
`List.find?` over the tables in dict order; `str.title()` on the single
lowercase words of the tables is `String.capitalize`. -/
def validate_anatomical_logic (claim : Claim) : List ValidationResult :=
  let cpt_code := claim.cpt_code
  let diagnosis_code := claim.diagnosis_code
  let claim_id := toString claim.claim_id
  let procedure_body_part :=
    (body_procedures.find? (fun p => cpt_code ∈ p.2)).map Prod.fst
  let diagnosis_body_part :=
    (body_diagnoses.find? (fun p => diagnosis_code ∈ p.2)).map Prod.fst
  match procedure_body_part, diagnosis_body_part with
  | some pbp, some dbp =>
      if pbp ≠ dbp then
        let pbpTitle := pbp.capitalize
        [{ claim_id := claim_id
           error_type := "Anatomical Logic Error"
           severity := "HIGH"
           description := s!"{pbpTitle} procedure ({cpt_code}) does not match {dbp} diagnosis ({diagnosis_code})"
           recommendation := "Verify anatomical consistency between procedure and diagnosis"
           confidence := 0.92 }]
      else []
  | _, _ => []

/-- Rule 4: procedure-diagnosis severity mismatches
(validate_severity_mismatch). -/
def validate_severity_mismatch (claim : Claim) : List ValidationResult :=
  let emergency_procedures := ["36415", "99281", "99291", "99283"]
  let routine_diagnoses := ["Z00.00", "Z12.11", "Z01.419"]
  let cpt_code := claim.cpt_code
  let diagnosis_code := claim.diagnosis_code
  let claim_id := toString claim.claim_id
  if cpt_code ∈ emergency_procedures ∧ diagnosis_code ∈ routine_diagnoses then
    [{ claim_id := claim_id
       error_type := "Severity Mismatch"
       severity := "MEDIUM"
       description := s!"Emergency procedure ({cpt_code}) inappropriate for routine diagnosis ({diagnosis_code})"
       recommendation := "Verify medical necessity or use appropriate procedure code"
       confidence := 0.80 }]
  else []

/-- validate_single_claim: concatenation of all rules in declaration order.
The source wraps each rule in try/except; the embedded rules are total
functions of a fully-populated Claim row, so the except arm is dead. -/
def validate_single_claim (claim : Claim) : List ValidationResult :=
  validate_gender_procedure claim ++
  validate_age_procedure claim ++
  validate_anatomical_logic claim ++
  validate_severity_mismatch claim

/-- One duplicate-service record produced by check_duplicates (a plain dict
in the source). -/
structure DuplicateError where
  patient_id : String
  service_date : String
  cpt_code : String
  count : Nat
  error_type : String
  severity : String
  description : String
  recommendation : String
deriving DecidableEq

/-- Grouping key of the duplicate pass: (patient_id, service_date, cpt_code). -/
def dupKey (c : Claim) : String × String × String :=
  (c.patient_id, c.service_date, c.cpt_code)

/-- Lexicographic order on grouping keys: pandas groupby sorts group keys. -/
def dupKeyLe (a b : String × String × String) : Bool :=
  decide (a.1 < b.1) ||
  (decide (a.1 = b.1) &&
    (decide (a.2.1 < b.2.1) ||
      (decide (a.2.1 = b.2.1) && decide (a.2.2 ≤ b.2.2))))

/-- check_duplicates: group claims by (patient_id, service_date, cpt_code)
via pandas groupby (group keys in sorted order), keep groups of size > 1,
and emit one record per such group. -/
def check_duplicates (claims : List Claim) : List DuplicateError :=
  let keys := ((claims.map dupKey).dedup).mergeSort dupKeyLe
  keys.filterMap (fun k =>
    let count := (claims.filter (fun c => dupKey c = k)).length
    if count > 1 then
      let patient_id := k.1
      let service_date := k.2.1
      let cpt_code := k.2.2
      some { patient_id := patient_id
             service_date := service_date
             cpt_code := cpt_code
             count := count
             error_type := "Duplicate Service"
             severity := "MEDIUM"
             description := s!"Procedure {cpt_code} billed {count} times for patient {patient_id} on {service_date}"
             recommendation := "Review for legitimate multiple procedures or billing error" }
    else none)

/-- Counting dict of validate_batch (`error_by_type` / `error_by_severity`):
`if key not in d: d[key] = 0` then `d[key] += 1`, preserving first-occurrence
insertion order. -/
def bumpCount : List (String × Nat) → String → List (String × Nat)
  | [], k => [(k, 1)]
  | (k', n) :: rest, k =>
      if k' = k then (k', n + 1) :: rest else (k', n) :: bumpCount rest k

/-- Fold a tally over a result list, as the grouping loops of validate_batch do. -/
def countBy (f : ValidationResult → String) (rs : List ValidationResult) :
    List (String × Nat) :=
  rs.foldl (fun m r => bumpCount m (f r)) []

/-- The summary block returned by validate_batch. -/
structure BatchSummary where
  total_claims : Nat
  claims_with_errors : Nat
  error_rate_percent : ℚ
  total_errors : Nat
  processing_time_seconds : ℚ
  errors_by_type : List (String × Nat)
  errors_by_severity : List (String × Nat)
deriving DecidableEq

/-- Full return value of validate_batch. -/
structure BatchResult where
  validation_results : List ValidationResult
  duplicate_errors : List DuplicateError
  summary : BatchSummary
deriving DecidableEq

/-- validate_batch.  The two datetime.now() reads surface as the single
explicit input `elapsed_seconds` (the measured wall-clock duration of the
run); everything else is a pure function of the claim list. -/
def validate_batch (claims : List Claim) (elapsed_seconds : ℚ) : BatchResult :=
  let all_validation_results := claims.flatMap validate_single_claim
  let duplicate_errors := check_duplicates claims
  let total_claims := claims.length
  let claims_with_errors := ((all_validation_results.map (·.claim_id)).dedup).length
  let error_rate : ℚ :=
    if total_claims > 0 then (claims_with_errors : ℚ) / (total_claims : ℚ) * 100 else 0
  { validation_results := all_validation_results
    duplicate_errors := duplicate_errors
    summary :=
      { total_claims := total_claims
        claims_with_errors := claims_with_errors
        error_rate_percent := roundTo error_rate 2
        total_errors := all_validation_results.length
        processing_time_seconds := roundTo elapsed_seconds 3
        errors_by_type := countBy (·.error_type) all_validation_results
        errors_by_severity := countBy (·.severity) all_validation_results } }

end ClaimValidator

/-! ## AI cache (src/ai_cache.py) -/

/-- AI-generated explanation (dataclass ExplanationResult of ai_explainer.py). -/
structure ExplanationResult where
  claim_id : String
  error_type : String
  ai_explanation : String
  medical_reasoning : String
  business_impact : String
  financial_impact : String
  regulatory_concerns : String
  next_steps : String
  confidence : ℚ
  risk_level : String
  fraud_indicators : List String
deriving DecidableEq

/-- The validation_error dict handed to the cache: built at the call sites
(BatchProcessor and the module self-test) with exactly the keys
error_type / description / severity. -/
structure ErrorDict where
  error_type : String
  description : String
  severity : String
deriving DecidableEq

/-- The claim_data dict handed to the cache: a claims-table row looked up by
id, or the empty dict `{}` when the id is absent, so every field read with
`.get` is optional. -/
structure ClaimData where
  age : Option Int := none
  gender : Option String := none
  cpt_code : Option String := none
  diagnosis_code : Option String := none
  charge_amount : Option ℚ := none
deriving DecidableEq

/-- Cache key of _create_cache_key: the source serializes exactly these
seven extracted fields to canonical (sorted-keys) JSON and md5-hashes the
bytes.  The embedding keeps the normalized record itself as the key — a
deterministic, injective fingerprint of the same data. -/
structure CacheKey where
  error_type : Option String
  description : Option String
  age : Option Int
  gender : Option String
  cpt_code : Option String
  diagnosis_code : Option String
  charge_amount : Option ℚ
deriving DecidableEq

/-- Cached AI explanation entry (dataclass CacheEntry). -/
structure CacheEntry where
  result : ExplanationResult
  timestamp : ℚ
  hit_count : Nat
  cache_key : CacheKey
deriving DecidableEq

/-- State of an AICache instance.  `max_size` and `ttl_hours` are Python
ints (possibly non-positive: the constructor performs no validation), the
dict and the LRU list are as in the source, and the stats dict is flattened
into the four counters. -/
structure AICache where
  max_size : Int
  ttl_seconds : Int
  cache : List (CacheKey × CacheEntry)
  access_order : List CacheKey
  hits : Nat
  misses : Nat
  evictions : Nat
  total_requests : Nat
deriving DecidableEq

namespace AICache

/-- AICache.__init__(max_size, ttl_hours): stores the configuration
unchecked and starts empty with zeroed statistics. -/
def init (max_size : Int := 100) (ttl_hours : Int := 24) : AICache :=
  { max_size := max_size
    ttl_seconds := ttl_hours * 3600
    cache := []
    access_order := []
    hits := 0
    misses := 0
    evictions := 0
    total_requests := 0 }

/-- _create_cache_key: extract the relevant fields of the two dicts. -/
def _create_cache_key (validation_error : ErrorDict) (claim_data : ClaimData) :
    CacheKey :=
  { error_type := some validation_error.error_type
    description := some validation_error.description
    age := claim_data.age
    gender := claim_data.gender
    cpt_code := claim_data.cpt_code
    diagnosis_code := claim_data.diagnosis_code
    charge_amount := claim_data.charge_amount }

/-- _update_access_order: remove the key if present, then append it. -/
def _update_access_order (c : AICache) (cache_key : CacheKey) : AICache :=
  let ao := if cache_key ∈ c.access_order
            then listErase c.access_order cache_key
            else c.access_order
  { c with access_order := ao ++ [cache_key] }

/-- _remove_entry: delete the key from the dict and the LRU list. -/
def _remove_entry (c : AICache) (cache_key : CacheKey) : AICache :=
  let cache' := if (dictGet c.cache cache_key).isSome
                then dictErase c.cache cache_key
                else c.cache
  let ao' := if cache_key ∈ c.access_order
             then listErase c.access_order cache_key
             else c.access_order
  { c with cache := cache', access_order := ao' }

/-- _evict_lru: drop the head of the LRU list (if any) and count an eviction. -/
def _evict_lru (c : AICache) : AICache :=
  match c.access_order with
  | [] => c
  | lru_key :: _ =>
      let c := _remove_entry c lru_key
      { c with evictions := c.evictions + 1 }

/-- AICache.get.  `current_time` is the time.time() read at the top of the
call.  Returns the optional cached result together with the new state. -/
def get (c : AICache) (validation_error : ErrorDict) (claim_data : ClaimData)
    (current_time : ℚ) : Option ExplanationResult × AICache :=
  let cache_key := _create_cache_key validation_error claim_data
  let c := { c with total_requests := c.total_requests + 1 }
  match dictGet c.cache cache_key with
  | some entry =>
      if current_time - entry.timestamp < (c.ttl_seconds : ℚ) then
        let entry := { entry with hit_count := entry.hit_count + 1 }
        let c := { c with cache := dictSet c.cache cache_key entry }
        let c := _update_access_order c cache_key
        let c := { c with hits := c.hits + 1 }
        (some entry.result, c)
      else
        let c := _remove_entry c cache_key
        (none, { c with misses := c.misses + 1 })
  | none => (none, { c with misses := c.misses + 1 })

/-- AICache.put.  Evicts the LRU entry first when at capacity and the key is
new, then stores a fresh entry and marks it most recently used. -/
def put (c : AICache) (validation_error : ErrorDict) (claim_data : ClaimData)
    (result : ExplanationResult) (current_time : ℚ) : AICache :=
  let cache_key := _create_cache_key validation_error claim_data
  let c :=
    if (c.cache.length : Int) ≥ c.max_size ∧ (dictGet c.cache cache_key).isNone
    then _evict_lru c
    else c
  let entry : CacheEntry :=
    { result := result
      timestamp := current_time
      hit_count := 0
      cache_key := cache_key }
  let c := { c with cache := dictSet c.cache cache_key entry }
  _update_access_order c cache_key

/-- The dict returned by get_stats. -/
structure Stats where
  hit_rate_percent : ℚ
  cache_size : Nat
  max_size : Int
  hits : Nat
  misses : Nat
  evictions : Nat
  total_requests : Nat
  memory_efficiency : ℚ
deriving DecidableEq

/-- AICache.get_stats: pure read of the accumulated counters. -/
def get_stats (c : AICache) : Stats :=
  let total_requests := c.total_requests
  let hit_rate : ℚ :=
    if total_requests > 0 then (c.hits : ℚ) / (total_requests : ℚ) * 100 else 0
  { hit_rate_percent := roundTo hit_rate 1
    cache_size := c.cache.length
    max_size := c.max_size
    hits := c.hits
    misses := c.misses
    evictions := c.evictions
    total_requests := total_requests
    memory_efficiency :=
      if c.max_size > 0
      then roundTo ((c.cache.length : ℚ) / (c.max_size : ℚ) * 100) 1
      else 0 }

/-- AICache.clear: empty both containers and reset every counter. -/
def clear (c : AICache) : AICache :=
  { c with cache := []
           access_order := []
           hits := 0
           misses := 0
           evictions := 0
           total_requests := 0 }

/-- One client operation on a cache instance, with the wall-clock instant at
which it runs. -/
inductive Op where
  | get (validation_error : ErrorDict) (claim_data : ClaimData) (t : ℚ)
  | put (validation_error : ErrorDict) (claim_data : ClaimData)
        (result : ExplanationResult) (t : ℚ)
  | clear
deriving DecidableEq

/-- Apply one operation to a cache state (the result of a get is dropped). -/
def step (c : AICache) : Op → AICache
  | .get ve cd t => (get c ve cd t).2
  | .put ve cd r t => put c ve cd r t
  | .clear => clear c

/-- Run a finite sequence of operations. -/
def run (c : AICache) (ops : List Op) : AICache :=
  ops.foldl step c

end AICache

/-! ## Batch processor (src/ai_cache.py, class BatchProcessor) -/

/-- State of a BatchProcessor instance: the shared cache handle, the batch
size and the processing_stats dict flattened into its four entries. -/
structure BatchProcessor where
  ai_cache : AICache
  batch_size : Int
  total_processed : Nat
  cache_hits : Nat
  ai_calls : Nat
  processing_time : ℚ
deriving DecidableEq

namespace BatchProcessor

/-- BatchProcessor.__init__(ai_cache, batch_size=10): stores the
configuration unchecked and zeroes the stats. -/
def init (ai_cache : AICache) (batch_size : Int := 10) : BatchProcessor :=
  { ai_cache := ai_cache
    batch_size := batch_size
    total_processed := 0
    cache_hits := 0
    ai_calls := 0
    processing_time := 0 }

/-- The external Explainer collaborator: `none` models
generate_explanation raising an exception (the failure arm of the
try/except in process_batch_optimized). -/
def Explainer : Type :=
  ErrorDict → ClaimData → Option ExplanationResult

/-- Slices `validation_results[i : i + batch_size]` for
`i in range(0, len, batch_size)` with positive step `b`.  The extra `fuel`
argument (instantiated with the list length, an upper bound on the number
of batches) only makes the recursion structural; with `fuel ≥ l.length` and
`b ≥ 1` the fuel never runs out. -/
def chunkList {α : Type} (b : Nat) : Nat → List α → List (List α)
  | _, [] => []
  | 0, _ :: _ => []
  | fuel + 1, x :: xs => (x :: xs.take (b - 1)) :: chunkList b fuel (xs.drop (b - 1))

/-- Batches traversed by the outer loop.  A negative batch_size makes the
Python range empty (no batches); a zero batch_size would raise ValueError
in Python and never occurs at the call sites, which use the positive
default. -/
def toBatches {α : Type} (batch_size : Int) (l : List α) : List (List α) :=
  if batch_size ≤ 0 then [] else chunkList batch_size.toNat l.length l

/-- Mutable state of one process_batch_optimized run: the growing result
dict, the processed counter, the shared cache, the two stat counters, and
two ghost logs that influence nothing: `submitted` records, in order, the
claim ids of the findings handed to `cache.get` (the findings "submitted
for explanation"), and `explained` records the claim ids for which the
external Explainer was actually invoked (the cache misses). -/
structure RunState where
  ai_explanations : List (String × ExplanationResult)
  processed_count : Nat
  cache : AICache
  cache_hits : Nat
  ai_calls : Nat
  submitted : List String
  explained : List String
deriving DecidableEq

/-- claims_data.get(int(result.claim_id), {}).  Validator-produced claim ids
are decimal strings, so `toInt?` always succeeds at the call sites (Python
int() raises on anything else). -/
def lookupClaimData (claims_data : List (Int × ClaimData)) (claim_id : String) :
    ClaimData :=
  match claim_id.toInt? with
  | some n => (dictGet claims_data n).getD {}
  | none => {}

/-- Inner loop of process_batch_optimized over one batch.  Per item: stop if
the processed counter has reached max_ai_claims; otherwise consult the
cache, and on a miss call the Explainer, recording the result and caching
it on success, or (on failure) logging a warning and continuing without
counting the item as processed.  The st.progress UI call has no effect on
the state and is not modelled. -/
def process_items (claims_data : List (Int × ClaimData)) (explainer : Explainer)
    (max_ai_claims : Nat) (now : ℚ) :
    RunState → List ValidationResult → RunState
  | st, [] => st
  | st, result :: rest =>
    if st.processed_count ≥ max_ai_claims then st
    else
      let claim_data := lookupClaimData claims_data result.claim_id
      let error_dict : ErrorDict :=
        { error_type := result.error_type
          description := result.description
          severity := result.severity }
      let got := AICache.get st.cache error_dict claim_data now
      let st := { st with cache := got.2
                          submitted := st.submitted ++ [result.claim_id] }
      match got.1 with
      | some cached_result =>
          let st :=
            { st with
              ai_explanations :=
                dictSet st.ai_explanations result.claim_id cached_result
              cache_hits := st.cache_hits + 1
              processed_count := st.processed_count + 1 }
          process_items claims_data explainer max_ai_claims now st rest
      | none =>
          let st := { st with explained := st.explained ++ [result.claim_id] }
          match explainer error_dict claim_data with
          | some ai_explanation =>
              let st :=
                { st with
                  ai_explanations :=
                    dictSet st.ai_explanations result.claim_id ai_explanation
                  cache :=
                    AICache.put st.cache error_dict claim_data ai_explanation now
                  ai_calls := st.ai_calls + 1
                  processed_count := st.processed_count + 1 }
              process_items claims_data explainer max_ai_claims now st rest
          | none =>
              process_items claims_data explainer max_ai_claims now st rest

/-- Outer loop of process_batch_optimized over the batches, with the
early break once the processed counter reaches max_ai_claims. -/
def process_batches (claims_data : List (Int × ClaimData)) (explainer : Explainer)
    (max_ai_claims : Nat) (now : ℚ) :
    RunState → List (List ValidationResult) → RunState
  | st, [] => st
  | st, batch :: rest =>
      let st := process_items claims_data explainer max_ai_claims now st batch
      if st.processed_count ≥ max_ai_claims then st
      else process_batches claims_data explainer max_ai_claims now st rest

/-- Observable outcome of one process_batch_optimized call: the returned
dict, the processor state afterwards, and the ghost submission log. -/
structure BatchRun where
  ai_explanations : List (String × ExplanationResult)
  processor : BatchProcessor
  submitted : List String
  explained : List String
deriving DecidableEq

/-- process_batch_optimized.  `now` stands for the time.time() instants
read inside the cache calls and `elapsed_seconds` for the measured
wall-clock duration written into processing_stats at the end. -/
def process_batch_optimized (bp : BatchProcessor)
    (validation_results : List ValidationResult)
    (claims_data : List (Int × ClaimData)) (explainer : Explainer)
    (max_ai_claims : Nat) (now : ℚ) (elapsed_seconds : ℚ) : BatchRun :=
  let st0 : RunState :=
    { ai_explanations := []
      processed_count := 0
      cache := bp.ai_cache
      cache_hits := bp.cache_hits
      ai_calls := bp.ai_calls
      submitted := []
      explained := [] }
  let st := process_batches claims_data explainer max_ai_claims now st0
              (toBatches bp.batch_size validation_results)
  { ai_explanations := st.ai_explanations
    processor :=
      { bp with
        ai_cache := st.cache
        cache_hits := st.cache_hits
        ai_calls := st.ai_calls
        total_processed := st.processed_count
        processing_time := elapsed_seconds }
    submitted := st.submitted
    explained := st.explained }

end BatchProcessor

/-! ## General lemmas about the dict and list primitives -/

section DictLemmas

variable {K V : Type} [DecidableEq K]

theorem dictGet_isSome_iff {d : List (K × V)} {k : K} :
    (dictGet d k).isSome ↔ k ∈ d.map Prod.fst := by
  induction d with
  | nil => simp [dictGet]
  | cons p rest ih =>
      obtain ⟨k', v⟩ := p
      simp only [dictGet, List.map_cons, List.mem_cons]
      by_cases h : k' = k
      · subst h
        simp
      · rw [if_neg h, ih]
        constructor
        · exact Or.inr
        · rintro (hk | hk)
          · exact absurd hk.symm h
          · exact hk

theorem dictGet_eq_none_iff {d : List (K × V)} {k : K} :
    dictGet d k = none ↔ k ∉ d.map Prod.fst := by
  rw [← dictGet_isSome_iff, ← Option.not_isSome_iff_eq_none]

theorem mem_of_dictGet_eq_some {d : List (K × V)} {k : K} {v : V}
    (h : dictGet d k = some v) : (k, v) ∈ d := by
  induction d with
  | nil => simp [dictGet] at h
  | cons p rest ih =>
      obtain ⟨k', v'⟩ := p
      by_cases hk : k' = k
      · subst hk
        simp [dictGet] at h
        cases h
        exact List.mem_cons_self _ _
      · simp [dictGet, hk] at h
        exact List.mem_cons_of_mem _ (ih h)

theorem dictGet_dictSet_self {d : List (K × V)} {k : K} {v : V} :
    dictGet (dictSet d k v) k = some v := by
  induction d with
  | nil => simp [dictGet, dictSet]
  | cons p rest ih =>
      obtain ⟨k', v'⟩ := p
      by_cases h : k' = k <;> simp [dictGet, dictSet, h, ih]

theorem dictSet_keys_of_mem {d : List (K × V)} {k : K} {v : V}
    (h : k ∈ d.map Prod.fst) :
    (dictSet d k v).map Prod.fst = d.map Prod.fst := by
  induction d with
  | nil => simp at h
  | cons p rest ih =>
      obtain ⟨k', v'⟩ := p
      by_cases hk : k' = k
      · simp [dictSet, hk]
      · simp only [List.map_cons, List.mem_cons] at h
        rcases h with h | h
        · exact absurd h.symm hk
        · simp [dictSet, hk, ih h]

theorem dictSet_of_not_mem {d : List (K × V)} {k : K} {v : V}
    (h : k ∉ d.map Prod.fst) :
    dictSet d k v = d ++ [(k, v)] := by
  induction d with
  | nil => simp [dictSet]
  | cons p rest ih =>
      obtain ⟨k', v'⟩ := p
      simp only [List.map_cons, List.mem_cons, not_or] at h
      have hk : ¬k' = k := fun e => h.1 e.symm
      simp [dictSet, hk, ih h.2]

theorem mem_dictSet {d : List (K × V)} {k : K} {v : V} {e : K × V}
    (h : e ∈ dictSet d k v) : e = (k, v) ∨ e ∈ d := by
  induction d with
  | nil => simpa [dictSet] using h
  | cons p rest ih =>
      obtain ⟨k', v'⟩ := p
      by_cases hk : k' = k
      · subst hk
        simp [dictSet] at h
        rcases h with h | h
        · exact Or.inl (by simp [h])
        · exact Or.inr (by simp [h])
      · simp [dictSet, hk] at h
        rcases h with h | h
        · exact Or.inr (by simp [h])
        · rcases ih h with h' | h'
          · exact Or.inl h'
          · exact Or.inr (by simp [h'])

theorem dictErase_keys {d : List (K × V)} {k : K} :
    (dictErase d k).map Prod.fst = listErase (d.map Prod.fst) k := by
  induction d with
  | nil => simp [dictErase, listErase]
  | cons p rest ih =>
      obtain ⟨k', v'⟩ := p
      by_cases h : k' = k <;> simp [dictErase, listErase, h, ih]

theorem mem_of_mem_dictErase {d : List (K × V)} {k : K} {e : K × V}
    (h : e ∈ dictErase d k) : e ∈ d := by
  induction d with
  | nil => simp [dictErase] at h
  | cons p rest ih =>
      obtain ⟨k', v'⟩ := p
      by_cases hk : k' = k
      · simp [dictErase, hk] at h
        simp [h]
      · simp [dictErase, hk] at h
        rcases h with h | h
        · simp [h]
        · simp [ih h]

theorem listErase_of_not_mem {l : List K} {k : K} (h : k ∉ l) :
    listErase l k = l := by
  induction l with
  | nil => simp [listErase]
  | cons x rest ih =>
      simp at h
      simp [listErase, Ne.symm h.1, ih h.2]

theorem length_listErase_of_mem {l : List K} {k : K} (h : k ∈ l) :
    (listErase l k).length + 1 = l.length := by
  induction l with
  | nil => simp at h
  | cons x rest ih =>
      by_cases hx : x = k
      · simp [listErase, hx]
      · rcases List.mem_cons.mp h with h' | h'
        · exact absurd h'.symm hx
        · simp [listErase, hx, ih h']

theorem mem_of_mem_listErase {l : List K} {k x : K}
    (h : x ∈ listErase l k) : x ∈ l := by
  induction l with
  | nil => simp [listErase] at h
  | cons y rest ih =>
      by_cases hy : y = k
      · simp [listErase, hy] at h
        simp [h]
      · simp [listErase, hy] at h
        rcases h with h | h
        · simp [h]
        · simp [ih h]

theorem mem_listErase_of_ne {l : List K} {k x : K}
    (hx : x ∈ l) (hne : x ≠ k) : x ∈ listErase l k := by
  induction l with
  | nil => simp at hx
  | cons y rest ih =>
      by_cases hy : y = k
      · subst hy
        simp [listErase]
        rcases List.mem_cons.mp hx with h | h
        · exact absurd h hne
        · exact h
      · simp [listErase, hy]
        rcases List.mem_cons.mp hx with h | h
        · exact Or.inl h
        · exact Or.inr (ih h)

theorem not_mem_listErase_self {l : List K} {k : K} (h : l.Nodup) :
    k ∉ listErase l k := by
  induction l with
  | nil => simp [listErase]
  | cons x rest ih =>
      rw [List.nodup_cons] at h
      by_cases hx : x = k
      · subst hx
        simpa [listErase] using h.1
      · simp [listErase, hx]
        exact ⟨fun hk => hx hk.symm, ih h.2⟩

theorem nodup_listErase {l : List K} {k : K} (h : l.Nodup) :
    (listErase l k).Nodup := by
  induction l with
  | nil => simp [listErase]
  | cons x rest ih =>
      rw [List.nodup_cons] at h
      by_cases hx : x = k
      · simp [listErase, hx, h.2]
      · simp only [listErase, if_neg hx]
        exact List.nodup_cons.mpr
          ⟨fun hk => h.1 (mem_of_mem_listErase hk), ih h.2⟩

theorem listErase_append_left {a b : List K} {k : K} (h : k ∈ a) :
    listErase (a ++ b) k = listErase a k ++ b := by
  induction a with
  | nil => simp at h
  | cons x rest ih =>
      by_cases hx : x = k
      · simp [listErase, hx]
      · rcases List.mem_cons.mp h with h' | h'
        · exact absurd h'.symm hx
        · simp [listErase, hx, ih h']

theorem listErase_filter {l : List K} (p : K → Bool) {k : K} (h : l.Nodup) :
    listErase (l.filter p) k =
      l.filter (fun x => p x && decide (x ≠ k)) := by
  induction l with
  | nil => simp [listErase]
  | cons x rest ih =>
      rw [List.nodup_cons] at h
      by_cases hx : x = k
      · subst hx
        by_cases hp : p x
        · have hcong : rest.filter (fun y => p y && decide (y ≠ x)) =
              rest.filter p := by
            apply List.filter_congr
            intro y hy
            have hyx : y ≠ x := fun e => h.1 (e ▸ hy)
            simp [hyx]
          rw [List.filter_cons_of_pos hp, List.filter_cons_of_neg (by simp)]
          simp only [listErase, if_pos rfl]
          exact hcong.symm
        · rw [List.filter_cons_of_neg hp, List.filter_cons_of_neg (by simp [hp])]
          exact ih h.2
      · by_cases hp : p x
        · rw [List.filter_cons_of_pos hp,
            List.filter_cons_of_pos (by simp [hp, hx])]
          simp only [listErase, if_neg hx]
          rw [ih h.2]
        · rw [List.filter_cons_of_neg hp, List.filter_cons_of_neg (by simp [hp])]
          exact ih h.2

theorem dictGet_dictErase_self {d : List (K × V)} {k : K}
    (h : (d.map Prod.fst).Nodup) : dictGet (dictErase d k) k = none := by
  rw [dictGet_eq_none_iff, dictErase_keys]
  exact not_mem_listErase_self h

theorem nodup_keys_dictSet {d : List (K × V)} {k : K} {v : V}
    (h : (d.map Prod.fst).Nodup) : ((dictSet d k v).map Prod.fst).Nodup := by
  by_cases hk : k ∈ d.map Prod.fst
  · rw [dictSet_keys_of_mem hk]
    exact h
  · rw [dictSet_of_not_mem hk]
    simp [List.nodup_append, h, hk]

theorem nodup_keys_dictErase {d : List (K × V)} {k : K}
    (h : (d.map Prod.fst).Nodup) : ((dictErase d k).map Prod.fst).Nodup := by
  rw [dictErase_keys]
  exact nodup_listErase h

theorem mem_listErase_iff {l : List K} {k x : K} (h : l.Nodup) :
    x ∈ listErase l k ↔ x ∈ l ∧ x ≠ k := by
  constructor
  · intro hx
    refine ⟨mem_of_mem_listErase hx, ?_⟩
    rintro rfl
    exact not_mem_listErase_self h hx
  · rintro ⟨hx, hne⟩
    exact mem_listErase_of_ne hx hne

theorem length_dictSet_of_mem {d : List (K × V)} {k : K} {v : V}
    (h : k ∈ d.map Prod.fst) : (dictSet d k v).length = d.length := by
  have := congrArg List.length (dictSet_keys_of_mem (v := v) h)
  simpa using this

theorem length_dictSet_of_not_mem {d : List (K × V)} {k : K} {v : V}
    (h : k ∉ d.map Prod.fst) : (dictSet d k v).length = d.length + 1 := by
  rw [dictSet_of_not_mem h]
  simp

theorem length_dictErase_of_mem {d : List (K × V)} {k : K}
    (h : k ∈ d.map Prod.fst) : (dictErase d k).length + 1 = d.length := by
  have h1 : ((dictErase d k).map Prod.fst).length + 1 = (d.map Prod.fst).length := by
    rw [dictErase_keys]
    exact length_listErase_of_mem h
  simpa using h1

end DictLemmas

/-! ## Well-formedness of a cache state and its preservation -/

namespace AICache

/-- Structural invariant of a cache state: the dict has no duplicate keys,
the LRU list has no duplicates, and they track exactly the same key set
(the spec's "LRU recency order and the entry set are always consistent"). -/
def WF (c : AICache) : Prop :=
  (c.cache.map Prod.fst).Nodup ∧ c.access_order.Nodup ∧
  ∀ k, k ∈ c.cache.map Prod.fst ↔ k ∈ c.access_order

theorem WF_init (max_size ttl_hours : Int) : WF (init max_size ttl_hours) := by
  refine ⟨by simp [init], by simp [init], fun k => by simp [init]⟩

theorem mem_updateAccessOrder {c : AICache} {k x : CacheKey} :
    x ∈ (_update_access_order c k).access_order ↔
      x ∈ c.access_order ∨ x = k := by
  simp only [_update_access_order]
  by_cases hk : k ∈ c.access_order
  · simp only [if_pos hk, List.mem_append, List.mem_singleton]
    constructor
    · rintro (hx | hx)
      · exact Or.inl (mem_of_mem_listErase hx)
      · exact Or.inr hx
    · rintro (hx | hx)
      · by_cases hxk : x = k
        · exact Or.inr hxk
        · exact Or.inl (mem_listErase_of_ne hx hxk)
      · exact Or.inr hx
  · simp [if_neg hk]

theorem nodup_updateAccessOrder {c : AICache} {k : CacheKey}
    (h : c.access_order.Nodup) :
    (_update_access_order c k).access_order.Nodup := by
  simp only [_update_access_order]
  by_cases hk : k ∈ c.access_order
  · simp only [if_pos hk]
    rw [List.nodup_append]
    exact ⟨nodup_listErase h, List.nodup_singleton k,
      by simpa using fun hx => not_mem_listErase_self h hx⟩
  · simp only [if_neg hk]
    rw [List.nodup_append]
    exact ⟨h, List.nodup_singleton k, by simpa using fun hx => hk hx⟩

theorem updateAccessOrder_cache {c : AICache} {k : CacheKey} :
    (_update_access_order c k).cache = c.cache := rfl

theorem WF_removeEntry {c : AICache} {k : CacheKey} (h : WF c) :
    WF (_remove_entry c k) := by
  obtain ⟨hck, hao, hcons⟩ := h
  by_cases hmem : k ∈ c.cache.map Prod.fst
  · have hget : (dictGet c.cache k).isSome := dictGet_isSome_iff.mpr hmem
    have haomem : k ∈ c.access_order := (hcons k).mp hmem
    refine ⟨?_, ?_, ?_⟩
    · simp only [_remove_entry, if_pos hget]
      exact nodup_keys_dictErase hck
    · simp only [_remove_entry, if_pos haomem]
      exact nodup_listErase hao
    · intro x
      simp only [_remove_entry, if_pos hget, if_pos haomem, dictErase_keys]
      rw [mem_listErase_iff hck, mem_listErase_iff hao, hcons x]
  · have hget : ¬(dictGet c.cache k).isSome := fun hs => hmem (dictGet_isSome_iff.mp hs)
    have haomem : k ∉ c.access_order := fun hx => hmem ((hcons k).mpr hx)
    simp only [_remove_entry, if_neg hget, if_neg haomem]
    exact ⟨hck, hao, hcons⟩

theorem WF_evictLRU {c : AICache} (h : WF c) : WF (_evict_lru c) := by
  rcases hao : c.access_order with _ | ⟨lru, rest⟩
  · simpa [_evict_lru, hao] using h
  · have h1 : WF (_remove_entry c lru) := WF_removeEntry h
    simpa [_evict_lru, hao] using h1

theorem WF_get {c : AICache} {ve : ErrorDict} {cd : ClaimData} {t : ℚ}
    (h : WF c) : WF (get c ve cd t).2 := by
  obtain ⟨hck, hao, hcons⟩ := h
  set key := _create_cache_key ve cd with hkey
  simp only [get]
  rcases hd : dictGet c.cache key with _ | entry
  · exact ⟨hck, hao, hcons⟩
  · by_cases hfresh : t - entry.timestamp < ((c.ttl_seconds : ℚ))
    · simp only [hd, if_pos hfresh]
      have hmem : key ∈ c.cache.map Prod.fst :=
        dictGet_isSome_iff.mp (by simp [hd])
      have hkeys : (dictSet c.cache key
          { entry with hit_count := entry.hit_count + 1 }).map Prod.fst =
          c.cache.map Prod.fst := dictSet_keys_of_mem hmem
      refine ⟨?_, ?_, ?_⟩
      · simpa [updateAccessOrder_cache, hkeys] using hck
      · exact nodup_updateAccessOrder hao
      · intro x
        rw [show ((_update_access_order
            { c with
              total_requests := c.total_requests + 1,
              cache := dictSet c.cache key
                { entry with hit_count := entry.hit_count + 1 } } key).cache) =
            dictSet c.cache key
              { entry with hit_count := entry.hit_count + 1 } from rfl]
        rw [hkeys, mem_updateAccessOrder]
        constructor
        · intro hx
          exact Or.inl ((hcons x).mp hx)
        · rintro (hx | rfl)
          · exact (hcons x).mpr hx
          · exact hmem
    · simp only [hd, if_neg hfresh]
      have h1 : WF (_remove_entry
          { c with total_requests := c.total_requests + 1 } key) :=
        WF_removeEntry ⟨hck, hao, hcons⟩
      exact h1

theorem WF_put {c : AICache} {ve : ErrorDict} {cd : ClaimData}
    {r : ExplanationResult} {t : ℚ} (h : WF c) : WF (put c ve cd r t) := by
  simp only [put]
  set key := _create_cache_key ve cd with hkey
  set c1 := if (c.cache.length : Int) ≥ c.max_size ∧ (dictGet c.cache key).isNone
      then _evict_lru c else c with hc1
  have h1 : WF c1 := by
    rw [hc1]
    split
    · exact WF_evictLRU h
    · exact h
  obtain ⟨hck1, hao1, hcons1⟩ := h1
  set entry : CacheEntry :=
    { result := r, timestamp := t, hit_count := 0, cache_key := key } with hentry
  by_cases hmem : key ∈ c1.cache.map Prod.fst
  · have hkeys : (dictSet c1.cache key entry).map Prod.fst =
        c1.cache.map Prod.fst := dictSet_keys_of_mem hmem
    refine ⟨?_, ?_, ?_⟩
    · simpa [updateAccessOrder_cache, hkeys] using hck1
    · exact nodup_updateAccessOrder hao1
    · intro x
      rw [show ((_update_access_order
          { c1 with cache := dictSet c1.cache key entry } key).cache) =
          dictSet c1.cache key entry from rfl]
      rw [hkeys, mem_updateAccessOrder]
      constructor
      · intro hx
        exact Or.inl ((hcons1 x).mp hx)
      · rintro (hx | rfl)
        · exact (hcons1 x).mpr hx
        · exact hmem
  · have hkeys : (dictSet c1.cache key entry).map Prod.fst =
        c1.cache.map Prod.fst ++ [key] := by
      rw [dictSet_of_not_mem hmem]
      simp
    refine ⟨?_, ?_, ?_⟩
    · rw [show ((_update_access_order
          { c1 with cache := dictSet c1.cache key entry } key).cache) =
          dictSet c1.cache key entry from rfl, hkeys]
      rw [List.nodup_append]
      exact ⟨hck1, List.nodup_singleton key, by simpa using fun hx => hmem hx⟩
    · exact nodup_updateAccessOrder hao1
    · intro x
      rw [show ((_update_access_order
          { c1 with cache := dictSet c1.cache key entry } key).cache) =
          dictSet c1.cache key entry from rfl]
      rw [hkeys, mem_updateAccessOrder]
      simp only [List.mem_append, List.mem_singleton]
      constructor
      · rintro (hx | hx)
        · exact Or.inl ((hcons1 x).mp hx)
        · exact Or.inr hx
      · rintro (hx | hx)
        · exact Or.inl ((hcons1 x).mpr hx)
        · exact Or.inr hx

theorem WF_clear {c : AICache} : WF (clear c) := by
  refine ⟨by simp [clear], by simp [clear], fun k => by simp [clear]⟩

theorem WF_step {c : AICache} {op : Op} (h : WF c) : WF (step c op) := by
  cases op with
  | get ve cd t => exact WF_get h
  | put ve cd r t => exact WF_put h
  | clear => exact WF_clear

theorem WF_run {c : AICache} {ops : List Op} (h : WF c) : WF (run c ops) := by
  induction ops generalizing c with
  | nil => exact h
  | cons op rest ih => exact ih (WF_step h)

/-! ### Field-projection facts for the cache operations -/

@[simp] theorem updateAccessOrder_hits {c : AICache} {k : CacheKey} :
    (_update_access_order c k).hits = c.hits := rfl

@[simp] theorem updateAccessOrder_misses {c : AICache} {k : CacheKey} :
    (_update_access_order c k).misses = c.misses := rfl

@[simp] theorem updateAccessOrder_evictions {c : AICache} {k : CacheKey} :
    (_update_access_order c k).evictions = c.evictions := rfl

@[simp] theorem updateAccessOrder_total {c : AICache} {k : CacheKey} :
    (_update_access_order c k).total_requests = c.total_requests := rfl

@[simp] theorem updateAccessOrder_max_size {c : AICache} {k : CacheKey} :
    (_update_access_order c k).max_size = c.max_size := rfl

@[simp] theorem updateAccessOrder_ttl {c : AICache} {k : CacheKey} :
    (_update_access_order c k).ttl_seconds = c.ttl_seconds := rfl

@[simp] theorem removeEntry_hits {c : AICache} {k : CacheKey} :
    (_remove_entry c k).hits = c.hits := rfl

@[simp] theorem removeEntry_misses {c : AICache} {k : CacheKey} :
    (_remove_entry c k).misses = c.misses := rfl

@[simp] theorem removeEntry_evictions {c : AICache} {k : CacheKey} :
    (_remove_entry c k).evictions = c.evictions := rfl

@[simp] theorem removeEntry_total {c : AICache} {k : CacheKey} :
    (_remove_entry c k).total_requests = c.total_requests := rfl

@[simp] theorem removeEntry_max_size {c : AICache} {k : CacheKey} :
    (_remove_entry c k).max_size = c.max_size := rfl

@[simp] theorem removeEntry_ttl {c : AICache} {k : CacheKey} :
    (_remove_entry c k).ttl_seconds = c.ttl_seconds := rfl

@[simp] theorem evictLRU_hits {c : AICache} : (_evict_lru c).hits = c.hits := by
  rcases h : c.access_order <;> simp [_evict_lru, h]

@[simp] theorem evictLRU_misses {c : AICache} :
    (_evict_lru c).misses = c.misses := by
  rcases h : c.access_order <;> simp [_evict_lru, h]

@[simp] theorem evictLRU_total {c : AICache} :
    (_evict_lru c).total_requests = c.total_requests := by
  rcases h : c.access_order <;> simp [_evict_lru, h]

@[simp] theorem evictLRU_max_size {c : AICache} :
    (_evict_lru c).max_size = c.max_size := by
  rcases h : c.access_order <;> simp [_evict_lru, h]

@[simp] theorem evictLRU_ttl {c : AICache} :
    (_evict_lru c).ttl_seconds = c.ttl_seconds := by
  rcases h : c.access_order <;> simp [_evict_lru, h]

theorem get_max_size {c : AICache} {ve : ErrorDict} {cd : ClaimData} {t : ℚ} :
    (get c ve cd t).2.max_size = c.max_size := by
  simp only [get]
  split
  · split <;> rfl
  · rfl

theorem get_ttl {c : AICache} {ve : ErrorDict} {cd : ClaimData} {t : ℚ} :
    (get c ve cd t).2.ttl_seconds = c.ttl_seconds := by
  simp only [get]
  split
  · split <;> rfl
  · rfl

theorem put_max_size {c : AICache} {ve : ErrorDict} {cd : ClaimData}
    {r : ExplanationResult} {t : ℚ} :
    (put c ve cd r t).max_size = c.max_size := by
  simp only [put]
  split <;> simp

theorem put_ttl {c : AICache} {ve : ErrorDict} {cd : ClaimData}
    {r : ExplanationResult} {t : ℚ} :
    (put c ve cd r t).ttl_seconds = c.ttl_seconds := by
  simp only [put]
  split <;> simp

theorem put_counters {c : AICache} {ve : ErrorDict} {cd : ClaimData}
    {r : ExplanationResult} {t : ℚ} :
    (put c ve cd r t).hits = c.hits ∧
    (put c ve cd r t).misses = c.misses ∧
    (put c ve cd r t).total_requests = c.total_requests := by
  simp only [put]
  split <;> simp

theorem step_max_size {c : AICache} {op : Op} :
    (step c op).max_size = c.max_size := by
  cases op with
  | get ve cd t => exact get_max_size
  | put ve cd r t => exact put_max_size
  | clear => rfl

theorem step_ttl {c : AICache} {op : Op} :
    (step c op).ttl_seconds = c.ttl_seconds := by
  cases op with
  | get ve cd t => exact get_ttl
  | put ve cd r t => exact put_ttl
  | clear => rfl

/-! ### Size bound -/

theorem get_cache_length_le {c : AICache} {ve : ErrorDict} {cd : ClaimData}
    {t : ℚ} : (get c ve cd t).2.cache.length ≤ c.cache.length := by
  simp only [get]
  split
  next entry heq =>
    have hmem : _create_cache_key ve cd ∈ c.cache.map Prod.fst :=
      dictGet_isSome_iff.mp (by simp [heq])
    have hsome : (dictGet c.cache (_create_cache_key ve cd)).isSome := by
      simp [heq]
    have hlen := length_dictErase_of_mem (d := c.cache)
      (k := _create_cache_key ve cd) hmem
    split
    · simp [updateAccessOrder_cache, length_dictSet_of_mem hmem]
    · simp [_remove_entry, hsome]
      omega
  next heq => exact le_refl _

/-- The dict held by a cache after put: LRU eviction may run first, then the
fresh entry is written under the computed key. -/
theorem put_cache_eq {c : AICache} {ve : ErrorDict} {cd : ClaimData}
    {r : ExplanationResult} {t : ℚ} :
    (put c ve cd r t).cache =
      dictSet
        (if (c.cache.length : Int) ≥ c.max_size ∧
            (dictGet c.cache (_create_cache_key ve cd)).isNone
         then _evict_lru c else c).cache
        (_create_cache_key ve cd)
        { result := r, timestamp := t, hit_count := 0,
          cache_key := _create_cache_key ve cd } := rfl

theorem put_cache_length_le {c : AICache} {ve : ErrorDict} {cd : ClaimData}
    {r : ExplanationResult} {t : ℚ} (h : WF c)
    (hlen : (c.cache.length : Int) ≤ c.max_size) (hpos : 0 < c.max_size) :
    ((put c ve cd r t).cache.length : Int) ≤ c.max_size := by
  obtain ⟨hck, hao, hcons⟩ := h
  rw [put_cache_eq]
  set key := _create_cache_key ve cd with hkey
  by_cases hcond :
      (c.cache.length : Int) ≥ c.max_size ∧ (dictGet c.cache key).isNone
  · rw [if_pos hcond]
    have hlen_eq : (c.cache.length : Int) = c.max_size := le_antisymm hlen hcond.1
    have hlen_pos : 0 < c.cache.length := by exact_mod_cast hlen_eq ▸ hpos
    have hkeysne : c.cache.map Prod.fst ≠ [] := by
      intro h0
      have : c.cache.length = 0 := by simpa using congrArg List.length h0
      omega
    obtain ⟨k0, hk0⟩ := List.exists_mem_of_ne_nil _ hkeysne
    have hk0ao : k0 ∈ c.access_order := (hcons k0).mp hk0
    rcases haoeq : c.access_order with _ | ⟨lru, rest⟩
    · rw [haoeq] at hk0ao
      simp at hk0ao
    · have hlruao : lru ∈ c.access_order := by
        rw [haoeq]
        exact List.mem_cons_self _ _
      have hlrumem : lru ∈ c.cache.map Prod.fst := (hcons lru).mpr hlruao
      have hlruget : (dictGet c.cache lru).isSome := dictGet_isSome_iff.mpr hlrumem
      have hc1cache : (_evict_lru c).cache = dictErase c.cache lru := by
        simp [_evict_lru, haoeq, _remove_entry, hlruget]
      have hlen1 : (dictErase c.cache lru).length + 1 = c.cache.length :=
        length_dictErase_of_mem hlrumem
      have hkeynot : key ∉ c.cache.map Prod.fst := by
        intro hx
        have hs := dictGet_isSome_iff.mpr hx
        rw [Option.isNone_iff_eq_none] at hcond
        simp [hcond.2] at hs
      have hkeynot1 : key ∉ (dictErase c.cache lru).map Prod.fst := by
        intro hx
        rw [dictErase_keys] at hx
        exact hkeynot (mem_of_mem_listErase hx)
      rw [hc1cache, length_dictSet_of_not_mem hkeynot1]
      omega
  · rw [if_neg hcond]
    by_cases hmem : key ∈ c.cache.map Prod.fst
    · rw [length_dictSet_of_mem hmem]
      exact hlen
    · have hnone : (dictGet c.cache key).isNone := by
        rw [Option.isNone_iff_eq_none, dictGet_eq_none_iff]
        exact hmem
      have hlt : ¬((c.cache.length : Int) ≥ c.max_size) := fun hge =>
        hcond ⟨hge, hnone⟩
      rw [length_dictSet_of_not_mem hmem]
      push_neg at hlt
      omega

/-- Combined invariant used for the size-bound claim. -/
def SizeInv (c : AICache) : Prop :=
  WF c ∧ (c.cache.length : Int) ≤ c.max_size ∧ 0 < c.max_size

theorem SizeInv_step {c : AICache} {op : Op} (h : SizeInv c) :
    SizeInv (step c op) := by
  obtain ⟨hwf, hlen, hpos⟩ := h
  refine ⟨WF_step hwf, ?_, by rwa [step_max_size]⟩
  rw [step_max_size]
  cases op with
  | get ve cd t =>
      have := @get_cache_length_le c ve cd t
      calc ((step c (.get ve cd t)).cache.length : Int)
          ≤ (c.cache.length : Int) := by exact_mod_cast this
        _ ≤ c.max_size := hlen
  | put ve cd r t => exact put_cache_length_le hwf hlen hpos
  | clear =>
      simp only [step, clear]
      simpa using le_of_lt hpos

theorem SizeInv_run {c : AICache} {ops : List Op} (h : SizeInv c) :
    SizeInv (run c ops) := by
  induction ops generalizing c with
  | nil => exact h
  | cons op rest ih => exact ih (SizeInv_step h)

/-! ### Counter bookkeeping -/

theorem get_counters {c : AICache} {ve : ErrorDict} {cd : ClaimData} {t : ℚ} :
    (get c ve cd t).2.total_requests = c.total_requests + 1 ∧
    (((get c ve cd t).2.hits = c.hits + 1 ∧ (get c ve cd t).2.misses = c.misses) ∨
      ((get c ve cd t).2.hits = c.hits ∧
        (get c ve cd t).2.misses = c.misses + 1)) := by
  simp only [get]
  split
  · split
    · exact ⟨rfl, Or.inl ⟨rfl, rfl⟩⟩
    · exact ⟨rfl, Or.inr ⟨rfl, rfl⟩⟩
  · exact ⟨rfl, Or.inr ⟨rfl, rfl⟩⟩

/-- Counter invariant: hits + misses always equals total_requests. -/
def StatsInv (c : AICache) : Prop :=
  c.hits + c.misses = c.total_requests

theorem StatsInv_step {c : AICache} {op : Op} (h : StatsInv c) :
    StatsInv (step c op) := by
  unfold StatsInv at h ⊢
  cases op with
  | get ve cd t =>
      simp only [step]
      obtain ⟨h1, h2 | h2⟩ := @get_counters c ve cd t <;>
        omega
  | put ve cd r t =>
      simp only [step]
      have := @put_counters c ve cd r t
      omega
  | clear => rfl

theorem StatsInv_run {c : AICache} {ops : List Op} (h : StatsInv c) :
    StatsInv (run c ops) := by
  induction ops generalizing c with
  | nil => exact h
  | cons op rest ih => exact ih (StatsInv_step h)

end AICache

/-! ### Bounds on the rounding helpers -/

theorem pyRound_nonneg {q : ℚ} (h : 0 ≤ q) : 0 ≤ pyRound q := by
  have hf : (0 : ℤ) ≤ ⌊q⌋ := Int.floor_nonneg.mpr h
  unfold pyRound
  dsimp only
  split_ifs <;> omega

theorem pyRound_le {q : ℚ} {M : ℤ} (h : q ≤ (M : ℚ)) : pyRound q ≤ M := by
  have hf : ⌊q⌋ ≤ M := by
    have := Int.floor_le_floor h
    simpa using this
  have hfl : (⌊q⌋ : ℚ) ≤ q := Int.floor_le q
  unfold pyRound
  dsimp only
  split_ifs with h1 h2 h3
  · exact hf
  · have hlt : (⌊q⌋ : ℚ) + 1/2 < (M : ℚ) := by
      push_neg at h1
      linarith
    have : ⌊q⌋ < M := by
      have : (⌊q⌋ : ℚ) < (M : ℚ) := by linarith
      exact_mod_cast this
    omega
  · exact hf
  · have heq : q - ⌊q⌋ = 1/2 := le_antisymm (not_lt.mp h2) (not_lt.mp h1)
    have hlt : (⌊q⌋ : ℚ) + 1/2 ≤ (M : ℚ) := by linarith
    have : ⌊q⌋ < M := by
      have : (⌊q⌋ : ℚ) < (M : ℚ) := by linarith
      exact_mod_cast this
    omega

theorem roundTo_nonneg {q : ℚ} {d : ℕ} (h : 0 ≤ q) : 0 ≤ roundTo q d := by
  unfold roundTo
  apply div_nonneg
  · exact_mod_cast pyRound_nonneg (mul_nonneg h (by positivity))
  · positivity

theorem roundTo_le {q : ℚ} {d : ℕ} {M : ℤ} (h : q ≤ (M : ℚ)) :
    roundTo q d ≤ (M : ℚ) := by
  unfold roundTo
  rw [div_le_iff₀ (by positivity)]
  have h1 : q * 10 ^ d ≤ (M : ℚ) * 10 ^ d :=
    mul_le_mul_of_nonneg_right h (by positivity)
  have h2 : pyRound (q * 10 ^ d) ≤ M * 10 ^ d := by
    apply pyRound_le
    push_cast
    exact h1
  calc ((pyRound (q * 10 ^ d) : ℚ)) ≤ ((M * 10 ^ d : ℤ) : ℚ) := by exact_mod_cast h2
    _ = (M : ℚ) * 10 ^ d := by push_cast; ring

namespace AICache

/-- The reported hit rate lies between 0 and 100 whenever the counter
invariant holds. -/
theorem get_stats_hit_rate_bounds {c : AICache} (h : StatsInv c) :
    0 ≤ (get_stats c).hit_rate_percent ∧
      (get_stats c).hit_rate_percent ≤ 100 := by
  unfold StatsInv at h
  have hle : c.hits ≤ c.total_requests := by omega
  simp only [get_stats]
  set raw : ℚ :=
    (if c.total_requests > 0
     then (c.hits : ℚ) / (c.total_requests : ℚ) * 100 else 0) with hraw
  have h0 : 0 ≤ raw := by
    rw [hraw]
    split
    · positivity
    · exact le_refl 0
  have h100 : raw ≤ ((100 : ℤ) : ℚ) := by
    rw [hraw]
    split
    next hpos =>
      have htr : (0 : ℚ) < (c.total_requests : ℚ) := by exact_mod_cast hpos
      have hq : (c.hits : ℚ) / (c.total_requests : ℚ) ≤ 1 := by
        rw [div_le_one htr]
        exact_mod_cast hle
      push_cast
      nlinarith
    next => norm_num
  constructor
  · exact roundTo_nonneg h0
  · have := roundTo_le (d := 1) h100
    simpa using this

theorem run_max_size {c : AICache} {ops : List Op} :
    (run c ops).max_size = c.max_size := by
  induction ops generalizing c with
  | nil => rfl
  | cons op rest ih =>
      calc (run (step c op) rest).max_size = (step c op).max_size := ih
        _ = c.max_size := step_max_size

end AICache

/-! ## Claim analysis

Shared concrete data used by the witnesses and counterexamples below. -/

/-- A concrete validation-error dict, varying in its description. -/
def sampleError (i : Nat) : ErrorDict :=
  { error_type := "Gender-Procedure Mismatch"
    description := s!"sample error {i}"
    severity := "HIGH" }

/-- A concrete explanation payload. -/
def sampleExplanation : ExplanationResult :=
  { claim_id := "1001"
    error_type := "Gender-Procedure Mismatch"
    ai_explanation := "explanation"
    medical_reasoning := "reasoning"
    business_impact := "impact"
    financial_impact := "financial"
    regulatory_concerns := "regulatory"
    next_steps := "steps"
    confidence := 1
    risk_level := "HIGH"
    fraud_indicators := [] }

/-! ### C1 — determinism of validate_batch -/

/-- Claim C1 (counterexample).  The claim asserts that running
validate_batch twice on the same claim list yields equal results in every
summary field including processing_time_seconds.  The source computes that
field from wall-clock time (datetime.now() twice), so two runs of the same
claim list with different measured durations differ in that field: here the
empty claim list with elapsed times 0 s and 1 s. -/
theorem C1_counterexample :
    ClaimValidator.validate_batch [] 0 ≠ ClaimValidator.validate_batch [] 1 := by
  intro h
  have h1 : (ClaimValidator.validate_batch [] 0).summary.processing_time_seconds =
      (ClaimValidator.validate_batch [] 1).summary.processing_time_seconds := by
    rw [h]
  have h0 : (ClaimValidator.validate_batch [] 0).summary.processing_time_seconds =
      roundTo 0 3 := rfl
  have h2 : (ClaimValidator.validate_batch [] 1).summary.processing_time_seconds =
      roundTo 1 3 := rfl
  rw [h0, h2] at h1
  norm_num [roundTo, pyRound] at h1

/-- Claim C1 (amended): for a fixed list of claims, validate_batch is
deterministic in its finding sequence, duplicate errors, and every summary
field except processing_time_seconds, which equals the (run-dependent)
measured wall-clock duration rounded to 3 digits. -/
theorem C1_theorem (claims : List Claim) (t1 t2 : ℚ) :
    (ClaimValidator.validate_batch claims t1).validation_results =
      (ClaimValidator.validate_batch claims t2).validation_results ∧
    (ClaimValidator.validate_batch claims t1).duplicate_errors =
      (ClaimValidator.validate_batch claims t2).duplicate_errors ∧
    (ClaimValidator.validate_batch claims t1).summary.total_claims =
      (ClaimValidator.validate_batch claims t2).summary.total_claims ∧
    (ClaimValidator.validate_batch claims t1).summary.claims_with_errors =
      (ClaimValidator.validate_batch claims t2).summary.claims_with_errors ∧
    (ClaimValidator.validate_batch claims t1).summary.error_rate_percent =
      (ClaimValidator.validate_batch claims t2).summary.error_rate_percent ∧
    (ClaimValidator.validate_batch claims t1).summary.total_errors =
      (ClaimValidator.validate_batch claims t2).summary.total_errors ∧
    (ClaimValidator.validate_batch claims t1).summary.errors_by_type =
      (ClaimValidator.validate_batch claims t2).summary.errors_by_type ∧
    (ClaimValidator.validate_batch claims t1).summary.errors_by_severity =
      (ClaimValidator.validate_batch claims t2).summary.errors_by_severity ∧
    (ClaimValidator.validate_batch claims t1).summary.processing_time_seconds =
      roundTo t1 3 :=
  ⟨rfl, rfl, rfl, rfl, rfl, rfl, rfl, rfl, rfl⟩

/-- Witness for C1_theorem at a concrete input. -/
theorem C1_witness :
    (ClaimValidator.validate_batch [] 0).validation_results =
      (ClaimValidator.validate_batch [] 1).validation_results ∧
    (ClaimValidator.validate_batch [] 0).duplicate_errors =
      (ClaimValidator.validate_batch [] 1).duplicate_errors ∧
    (ClaimValidator.validate_batch [] 0).summary.total_claims =
      (ClaimValidator.validate_batch [] 1).summary.total_claims ∧
    (ClaimValidator.validate_batch [] 0).summary.claims_with_errors =
      (ClaimValidator.validate_batch [] 1).summary.claims_with_errors ∧
    (ClaimValidator.validate_batch [] 0).summary.error_rate_percent =
      (ClaimValidator.validate_batch [] 1).summary.error_rate_percent ∧
    (ClaimValidator.validate_batch [] 0).summary.total_errors =
      (ClaimValidator.validate_batch [] 1).summary.total_errors ∧
    (ClaimValidator.validate_batch [] 0).summary.errors_by_type =
      (ClaimValidator.validate_batch [] 1).summary.errors_by_type ∧
    (ClaimValidator.validate_batch [] 0).summary.errors_by_severity =
      (ClaimValidator.validate_batch [] 1).summary.errors_by_severity ∧
    (ClaimValidator.validate_batch [] 0).summary.processing_time_seconds =
      roundTo 0 3 :=
  C1_theorem [] 0 1

/-! ### C2 — cache size never exceeds capacity -/

/-- Claim C2: for every cache constructed with positive capacity and every
finite sequence of get / put / clear operations, the number of entries in
the cache dict never exceeds max_size. -/
theorem C2_theorem (max_size ttl_hours : Int) (ops : List AICache.Op)
    (hpos : 0 < max_size) :
    (((AICache.init max_size ttl_hours).run ops).cache.length : Int) ≤
      max_size := by
  have hinv : AICache.SizeInv ((AICache.init max_size ttl_hours).run ops) := by
    apply AICache.SizeInv_run
    refine ⟨AICache.WF_init _ _, ?_, ?_⟩
    · simp [AICache.init]
      omega
    · simpa [AICache.init] using hpos
  have hms : ((AICache.init max_size ttl_hours).run ops).max_size = max_size := by
    rw [AICache.run_max_size]
    rfl
  have := hinv.2.1
  rwa [hms] at this

/-- Witness for C2_theorem: three puts of distinct keys into a capacity-2
cache leave at most 2 entries. -/
theorem C2_witness :
    (0 : Int) < 2 ∧
    (((AICache.init 2 24).run
        [.put (sampleError 0) {} sampleExplanation 0,
         .put (sampleError 1) {} sampleExplanation 0,
         .put (sampleError 2) {} sampleExplanation 0]).cache.length : Int) ≤ 2 :=
  ⟨by norm_num,
    C2_theorem 2 24
      [.put (sampleError 0) {} sampleExplanation 0,
       .put (sampleError 1) {} sampleExplanation 0,
       .put (sampleError 2) {} sampleExplanation 0] (by norm_num)⟩

/-! ### C3 — TTL expiry deletes the entry and counts a miss -/

/-- Claim C3: if get is called for a key whose entry's age (current time
minus stored timestamp) is at least the configured TTL, get returns none,
the entry is removed from both the dict and the recency list (so the
reported cache_size reflects the removal), and the call is counted as a
miss plus a request, never a hit. -/
theorem C3_theorem (c : AICache) (ve : ErrorDict) (cd : ClaimData) (t : ℚ)
    (entry : CacheEntry) (hwf : AICache.WF c)
    (hfind : dictGet c.cache (AICache._create_cache_key ve cd) = some entry)
    (hexp : (c.ttl_seconds : ℚ) ≤ t - entry.timestamp) :
    (AICache.get c ve cd t).1 = none ∧
    dictGet (AICache.get c ve cd t).2.cache
      (AICache._create_cache_key ve cd) = none ∧
    AICache._create_cache_key ve cd ∉ (AICache.get c ve cd t).2.access_order ∧
    (AICache.get_stats (AICache.get c ve cd t).2).cache_size + 1 =
      (AICache.get_stats c).cache_size ∧
    (AICache.get c ve cd t).2.misses = c.misses + 1 ∧
    (AICache.get c ve cd t).2.hits = c.hits ∧
    (AICache.get c ve cd t).2.total_requests = c.total_requests + 1 := by
  obtain ⟨hck, hao, hcons⟩ := hwf
  set key := AICache._create_cache_key ve cd with hkey
  have hmem : key ∈ c.cache.map Prod.fst :=
    dictGet_isSome_iff.mp (by simp [hfind])
  have haomem : key ∈ c.access_order := (hcons key).mp hmem
  have hsome : (dictGet c.cache key).isSome := by simp [hfind]
  have hstale : ¬(t - entry.timestamp < (c.ttl_seconds : ℚ)) := not_lt.mpr hexp
  refine ⟨?_, ?_, ?_, ?_, ?_, ?_, ?_⟩
  · simp [AICache.get, ← hkey, hfind, hstale]
  · simpa [AICache.get, ← hkey, hfind, hstale, AICache._remove_entry, hsome]
      using dictGet_dictErase_self hck
  · simpa [AICache.get, ← hkey, hfind, hstale, AICache._remove_entry, haomem]
      using not_mem_listErase_self hao
  · simpa [AICache.get, ← hkey, hfind, hstale, AICache._remove_entry, hsome,
      AICache.get_stats] using length_dictErase_of_mem hmem
  · simp [AICache.get, ← hkey, hfind, hstale]
  · simp [AICache.get, ← hkey, hfind, hstale]
  · simp [AICache.get, ← hkey, hfind, hstale]

/-- Witness for C3_theorem: a single entry written at time 0 into a cache
with a 1-hour TTL is expired when read at time 3600. -/
theorem C3_witness :
    (AICache.get ((AICache.init 100 1).put (sampleError 0) {} sampleExplanation 0)
        (sampleError 0) {} 3600).1 = none ∧
    dictGet (AICache.get ((AICache.init 100 1).put (sampleError 0) {}
          sampleExplanation 0) (sampleError 0) {} 3600).2.cache
      (AICache._create_cache_key (sampleError 0) {}) = none ∧
    AICache._create_cache_key (sampleError 0) {} ∉
      (AICache.get ((AICache.init 100 1).put (sampleError 0) {}
          sampleExplanation 0) (sampleError 0) {} 3600).2.access_order ∧
    (AICache.get_stats (AICache.get ((AICache.init 100 1).put (sampleError 0) {}
          sampleExplanation 0) (sampleError 0) {} 3600).2).cache_size + 1 =
      (AICache.get_stats ((AICache.init 100 1).put (sampleError 0) {}
          sampleExplanation 0)).cache_size ∧
    (AICache.get ((AICache.init 100 1).put (sampleError 0) {} sampleExplanation 0)
        (sampleError 0) {} 3600).2.misses =
      ((AICache.init 100 1).put (sampleError 0) {} sampleExplanation 0).misses + 1 ∧
    (AICache.get ((AICache.init 100 1).put (sampleError 0) {} sampleExplanation 0)
        (sampleError 0) {} 3600).2.hits =
      ((AICache.init 100 1).put (sampleError 0) {} sampleExplanation 0).hits ∧
    (AICache.get ((AICache.init 100 1).put (sampleError 0) {} sampleExplanation 0)
        (sampleError 0) {} 3600).2.total_requests =
      ((AICache.init 100 1).put (sampleError 0) {} sampleExplanation 0).total_requests + 1 :=
  C3_theorem ((AICache.init 100 1).put (sampleError 0) {} sampleExplanation 0)
    (sampleError 0) {} 3600
    { result := sampleExplanation, timestamp := 0, hit_count := 0,
      cache_key := AICache._create_cache_key (sampleError 0) {} }
    (AICache.WF_put (AICache.WF_init 100 1))
    (by decide)
    (by rw [AICache.put_ttl]; norm_num [AICache.init])

/-! ### C7 — put on an existing key updates in place -/

/-- Facts about the statistics fields of put: the eviction counter moves
only when the eviction branch runs. -/
theorem put_evictions_eq {c : AICache} {ve : ErrorDict} {cd : ClaimData}
    {r : ExplanationResult} {t : ℚ} :
    (AICache.put c ve cd r t).evictions =
      (if (c.cache.length : Int) ≥ c.max_size ∧
          (dictGet c.cache (AICache._create_cache_key ve cd)).isNone
       then AICache._evict_lru c else c).evictions := rfl

/-- Claim C7: a put whose inputs fingerprint to a key already present in
the cache updates that entry in place — the key sequence of the dict is
unchanged (so no second entry appears and the size is unchanged), the
eviction counter does not move even at capacity, and the stored entry under
that key becomes the freshly-built one. -/
theorem C7_theorem (c : AICache) (ve : ErrorDict) (cd : ClaimData)
    (r : ExplanationResult) (t : ℚ) (entry : CacheEntry)
    (hfind : dictGet c.cache (AICache._create_cache_key ve cd) = some entry) :
    (AICache.put c ve cd r t).cache.map Prod.fst = c.cache.map Prod.fst ∧
    (AICache.put c ve cd r t).cache.length = c.cache.length ∧
    (AICache.put c ve cd r t).evictions = c.evictions ∧
    dictGet (AICache.put c ve cd r t).cache (AICache._create_cache_key ve cd) =
      some { result := r, timestamp := t, hit_count := 0,
             cache_key := AICache._create_cache_key ve cd } := by
  set key := AICache._create_cache_key ve cd with hkey
  have hmem : key ∈ c.cache.map Prod.fst :=
    dictGet_isSome_iff.mp (by simp [hfind])
  have hnotnone : ¬((c.cache.length : Int) ≥ c.max_size ∧
      (dictGet c.cache key).isNone) := by
    rintro ⟨-, hnone⟩
    simp [hfind] at hnone
  have hkeys : (AICache.put c ve cd r t).cache.map Prod.fst =
      c.cache.map Prod.fst := by
    rw [AICache.put_cache_eq, if_neg hnotnone]
    exact dictSet_keys_of_mem hmem
  refine ⟨hkeys, ?_, ?_, ?_⟩
  · have := congrArg List.length hkeys
    simpa using this
  · rw [put_evictions_eq, if_neg hnotnone]
  · rw [AICache.put_cache_eq, if_neg hnotnone]
    exact dictGet_dictSet_self

/-- Witness for C7_theorem: re-putting the key of the single entry of a
capacity-1 cache (a cache at capacity) leaves one entry and no eviction. -/
theorem C7_witness :
    ((AICache.init 1 24).put (sampleError 0) {} sampleExplanation 0 |>.put
        (sampleError 0) {} sampleExplanation 5).cache.map Prod.fst =
      ((AICache.init 1 24).put (sampleError 0) {}
          sampleExplanation 0).cache.map Prod.fst ∧
    ((AICache.init 1 24).put (sampleError 0) {} sampleExplanation 0 |>.put
        (sampleError 0) {} sampleExplanation 5).cache.length =
      ((AICache.init 1 24).put (sampleError 0) {}
          sampleExplanation 0).cache.length ∧
    ((AICache.init 1 24).put (sampleError 0) {} sampleExplanation 0 |>.put
        (sampleError 0) {} sampleExplanation 5).evictions =
      ((AICache.init 1 24).put (sampleError 0) {} sampleExplanation 0).evictions ∧
    dictGet ((AICache.init 1 24).put (sampleError 0) {} sampleExplanation 0 |>.put
        (sampleError 0) {} sampleExplanation 5).cache
      (AICache._create_cache_key (sampleError 0) {}) =
      some { result := sampleExplanation, timestamp := 5, hit_count := 0,
             cache_key := AICache._create_cache_key (sampleError 0) {} } :=
  C7_theorem ((AICache.init 1 24).put (sampleError 0) {} sampleExplanation 0)
    (sampleError 0) {} sampleExplanation 5
    { result := sampleExplanation, timestamp := 0, hit_count := 0,
      cache_key := AICache._create_cache_key (sampleError 0) {} }
    (by decide)

/-! ### C8 — configuration validation at construction -/

/-- Claim C8 (counterexample).  The claim asserts that constructing a core
component with a non-positive capacity (or TTL, or pool width) fails
immediately rather than producing a usable object.  AICache.__init__
performs no validation: a cache constructed with max_size 0 is returned and
accepts a put, after which it holds one entry — more than its configured
capacity — so the object degrades silently instead of failing. -/
theorem C8_counterexample :
    ((AICache.init 0 24).put (sampleError 0) {} sampleExplanation 0).max_size = 0 ∧
    ((AICache.init 0 24).put (sampleError 0) {} sampleExplanation 0).cache.length = 1 := by
  constructor
  · rfl
  · decide

/-- Claim C8 (amended): neither AICache.__init__ nor BatchProcessor.__init__
validates its configuration.  Construction with a non-positive max_size (and
any ttl_hours) succeeds, stores the configuration verbatim, and yields a
usable object: a subsequent put stores an entry, silently exceeding the
configured capacity.  A BatchProcessor likewise accepts any batch_size. -/
theorem C8_theorem (max_size ttl_hours batch_size : Int) (hms : max_size ≤ 0)
    (ve : ErrorDict) (cd : ClaimData) (r : ExplanationResult) (t : ℚ) :
    (AICache.init max_size ttl_hours).max_size = max_size ∧
    (AICache.init max_size ttl_hours).ttl_seconds = ttl_hours * 3600 ∧
    ((AICache.init max_size ttl_hours).put ve cd r t).cache.length = 1 ∧
    ((AICache.init max_size ttl_hours).put ve cd r t).max_size <
      (((AICache.init max_size ttl_hours).put ve cd r t).cache.length : Int) ∧
    (BatchProcessor.init (AICache.init max_size ttl_hours) batch_size).batch_size =
      batch_size := by
  have hcache : ((AICache.init max_size ttl_hours).put ve cd r t).cache =
      [(AICache._create_cache_key ve cd,
        { result := r, timestamp := t, hit_count := 0,
          cache_key := AICache._create_cache_key ve cd })] := by
    rw [AICache.put_cache_eq]
    have hcond : (((AICache.init max_size ttl_hours).cache.length : Int) ≥
        (AICache.init max_size ttl_hours).max_size ∧
        (dictGet (AICache.init max_size ttl_hours).cache
          (AICache._create_cache_key ve cd)).isNone) := by
      constructor
      · show ((List.length [] : Int)) ≥ max_size
        simpa using hms
      · rfl
    rw [if_pos hcond]
    rfl
  refine ⟨rfl, rfl, ?_, ?_, rfl⟩
  · rw [hcache]
    rfl
  · rw [AICache.put_max_size, hcache]
    show max_size < (1 : Int)
    omega

/-- Witness for C8_theorem at max_size 0. -/
theorem C8_witness :
    (AICache.init 0 24).max_size = 0 ∧
    (AICache.init 0 24).ttl_seconds = 24 * 3600 ∧
    ((AICache.init 0 24).put (sampleError 0) {} sampleExplanation 0).cache.length = 1 ∧
    ((AICache.init 0 24).put (sampleError 0) {} sampleExplanation 0).max_size <
      ((((AICache.init 0 24).put (sampleError 0) {}
          sampleExplanation 0).cache.length : Int)) ∧
    (BatchProcessor.init (AICache.init 0 24) 0).batch_size = 0 :=
  C8_theorem 0 24 0 (by norm_num) (sampleError 0) {} sampleExplanation 0

/-! ### C10 — counter bookkeeping and hit rate -/

/-- Claim C10: after any finite sequence of get / put / clear operations on
a freshly constructed cache, hits + misses = total_requests; moreover every
get increments total_requests and exactly one of hits / misses, put touches
none of the three counters, clear resets them, and the hit rate reported by
get_stats always lies between 0 and 100. -/
theorem C10_theorem (max_size ttl_hours : Int) (ops : List AICache.Op) :
    ((AICache.init max_size ttl_hours).run ops).hits +
        ((AICache.init max_size ttl_hours).run ops).misses =
      ((AICache.init max_size ttl_hours).run ops).total_requests ∧
    0 ≤ (AICache.get_stats ((AICache.init max_size ttl_hours).run ops)).hit_rate_percent ∧
    (AICache.get_stats ((AICache.init max_size ttl_hours).run ops)).hit_rate_percent ≤ 100 ∧
    (∀ (ve : ErrorDict) (cd : ClaimData) (t : ℚ),
      (AICache.get ((AICache.init max_size ttl_hours).run ops) ve cd t).2.total_requests =
        ((AICache.init max_size ttl_hours).run ops).total_requests + 1 ∧
      (((AICache.get ((AICache.init max_size ttl_hours).run ops) ve cd t).2.hits =
          ((AICache.init max_size ttl_hours).run ops).hits + 1 ∧
        (AICache.get ((AICache.init max_size ttl_hours).run ops) ve cd t).2.misses =
          ((AICache.init max_size ttl_hours).run ops).misses) ∨
        ((AICache.get ((AICache.init max_size ttl_hours).run ops) ve cd t).2.hits =
          ((AICache.init max_size ttl_hours).run ops).hits ∧
        (AICache.get ((AICache.init max_size ttl_hours).run ops) ve cd t).2.misses =
          ((AICache.init max_size ttl_hours).run ops).misses + 1))) ∧
    (∀ (ve : ErrorDict) (cd : ClaimData) (r : ExplanationResult) (t : ℚ),
      (AICache.put ((AICache.init max_size ttl_hours).run ops) ve cd r t).hits =
        ((AICache.init max_size ttl_hours).run ops).hits ∧
      (AICache.put ((AICache.init max_size ttl_hours).run ops) ve cd r t).misses =
        ((AICache.init max_size ttl_hours).run ops).misses ∧
      (AICache.put ((AICache.init max_size ttl_hours).run ops) ve cd r t).total_requests =
        ((AICache.init max_size ttl_hours).run ops).total_requests) ∧
    ((AICache.clear ((AICache.init max_size ttl_hours).run ops)).hits = 0 ∧
      (AICache.clear ((AICache.init max_size ttl_hours).run ops)).misses = 0 ∧
      (AICache.clear ((AICache.init max_size ttl_hours).run ops)).total_requests = 0) := by
  have hinv : AICache.StatsInv ((AICache.init max_size ttl_hours).run ops) :=
    AICache.StatsInv_run (by simp [AICache.StatsInv, AICache.init])
  have hbounds := AICache.get_stats_hit_rate_bounds hinv
  refine ⟨hinv, hbounds.1, hbounds.2, ?_, ?_, ⟨rfl, rfl, rfl⟩⟩
  · intro ve cd t
    exact AICache.get_counters
  · intro ve cd r t
    exact AICache.put_counters

/-- Witness for C10_theorem on a short concrete operation sequence. -/
theorem C10_witness :
    ((AICache.init 100 24).run [.get (sampleError 0) {} 0]).hits +
        ((AICache.init 100 24).run [.get (sampleError 0) {} 0]).misses =
      ((AICache.init 100 24).run [.get (sampleError 0) {} 0]).total_requests ∧
    0 ≤ (AICache.get_stats ((AICache.init 100 24).run
        [.get (sampleError 0) {} 0])).hit_rate_percent ∧
    (AICache.get_stats ((AICache.init 100 24).run
        [.get (sampleError 0) {} 0])).hit_rate_percent ≤ 100 ∧
    (∀ (ve : ErrorDict) (cd : ClaimData) (t : ℚ),
      (AICache.get ((AICache.init 100 24).run [.get (sampleError 0) {} 0]) ve cd t).2.total_requests =
        ((AICache.init 100 24).run [.get (sampleError 0) {} 0]).total_requests + 1 ∧
      (((AICache.get ((AICache.init 100 24).run [.get (sampleError 0) {} 0]) ve cd t).2.hits =
          ((AICache.init 100 24).run [.get (sampleError 0) {} 0]).hits + 1 ∧
        (AICache.get ((AICache.init 100 24).run [.get (sampleError 0) {} 0]) ve cd t).2.misses =
          ((AICache.init 100 24).run [.get (sampleError 0) {} 0]).misses) ∨
        ((AICache.get ((AICache.init 100 24).run [.get (sampleError 0) {} 0]) ve cd t).2.hits =
          ((AICache.init 100 24).run [.get (sampleError 0) {} 0]).hits ∧
        (AICache.get ((AICache.init 100 24).run [.get (sampleError 0) {} 0]) ve cd t).2.misses =
          ((AICache.init 100 24).run [.get (sampleError 0) {} 0]).misses + 1))) ∧
    (∀ (ve : ErrorDict) (cd : ClaimData) (r : ExplanationResult) (t : ℚ),
      (AICache.put ((AICache.init 100 24).run [.get (sampleError 0) {} 0]) ve cd r t).hits =
        ((AICache.init 100 24).run [.get (sampleError 0) {} 0]).hits ∧
      (AICache.put ((AICache.init 100 24).run [.get (sampleError 0) {} 0]) ve cd r t).misses =
        ((AICache.init 100 24).run [.get (sampleError 0) {} 0]).misses ∧
      (AICache.put ((AICache.init 100 24).run [.get (sampleError 0) {} 0]) ve cd r t).total_requests =
        ((AICache.init 100 24).run [.get (sampleError 0) {} 0]).total_requests) ∧
    ((AICache.clear ((AICache.init 100 24).run [.get (sampleError 0) {} 0])).hits = 0 ∧
      (AICache.clear ((AICache.init 100 24).run [.get (sampleError 0) {} 0])).misses = 0 ∧
      (AICache.clear ((AICache.init 100 24).run [.get (sampleError 0) {} 0])).total_requests = 0) :=
  C10_theorem 100 24 [.get (sampleError 0) {} 0]

/-! ### C6 — Explainer-failure isolation -/

/-- A concrete finding whose error dict fingerprints to sampleError i. -/
def sampleFinding (i : Nat) : ValidationResult :=
  { claim_id := toString i
    error_type := "Gender-Procedure Mismatch"
    severity := "HIGH"
    description := s!"sample error {i}"
    recommendation := "review"
    confidence := 1 }

/-- An Explainer that fails (raises) exactly on the fifth task's error and
succeeds on every other input. -/
def c6Explainer : BatchProcessor.Explainer := fun e _ =>
  if e.description = "sample error 5" then none else some sampleExplanation

/-- Ten findings with distinct claim ids 1..10. -/
def c6Findings : List ValidationResult :=
  (List.range 10).map (fun i => sampleFinding (i + 1))

/-- The batch run of the ten findings against c6Explainer with an empty
claims table and maxToProcess 10. -/
def c6Run : BatchProcessor.BatchRun :=
  (BatchProcessor.init (AICache.init 100 24)).process_batch_optimized
    c6Findings [] c6Explainer 10 0 0

/-- Claim C6: with 10 tasks of which exactly the fifth one's Explainer call
fails, process_batch_optimized returns normally (the exception is caught)
with exactly 9 entries — every claim except the failed one, in order — and
the remaining tasks are still processed: all ten findings are submitted
(looked up in the cache) and all ten reach the Explainer. -/
theorem C6_theorem :
    c6Run.ai_explanations.map Prod.fst =
      ["1", "2", "3", "4", "6", "7", "8", "9", "10"] ∧
    c6Run.ai_explanations.length = 9 ∧
    c6Run.submitted =
      ["1", "2", "3", "4", "5", "6", "7", "8", "9", "10"] ∧
    c6Run.explained = c6Run.submitted := by
  decide

/-! ### C5 — the maxToProcess bound -/

/-- An Explainer whose calls always fail. -/
def c5Explainer : BatchProcessor.Explainer := fun _ _ => none

/-- Claim C5 (counterexample).  The claim asserts that for every findings
list and bound, exactly the first maxToProcess findings are submitted and
the rest are untouched.  Because a failed Explainer call skips the
processed-counter increment (the except arm ends in `continue`), a run of 2
findings with maxToProcess = 1 and a failing Explainer submits both
findings to the cache and the Explainer. -/
theorem C5_counterexample :
    ((BatchProcessor.init (AICache.init 100 24)).process_batch_optimized
        [sampleFinding 1, sampleFinding 2] [] c5Explainer 1 0 0).submitted =
      ["1", "2"] ∧
    ((BatchProcessor.init (AICache.init 100 24)).process_batch_optimized
        [sampleFinding 1, sampleFinding 2] [] c5Explainer 1 0 0).explained =
      ["1", "2"] := by
  decide

namespace BatchProcessor

/-- Inner-loop bookkeeping when every submission yields a result: the
submission log grows by the claim ids of the first `max - count` items and
the processed counter by their number. -/
theorem process_items_spec (claims_data : List (Int × ClaimData))
    (explainer : Explainer) (max_ai_claims : Nat) (now : ℚ)
    (hsucc : ∀ e c, (explainer e c).isSome) :
    ∀ (items : List ValidationResult) (st : RunState),
      (process_items claims_data explainer max_ai_claims now st items).submitted =
        st.submitted ++
          (items.map (·.claim_id)).take (max_ai_claims - st.processed_count) ∧
      (process_items claims_data explainer max_ai_claims now st items).processed_count =
        st.processed_count +
          min items.length (max_ai_claims - st.processed_count) := by
  intro items
  induction items with
  | nil =>
      intro st
      simp [process_items]
  | cons result rest ih =>
      intro st
      by_cases hstop : st.processed_count ≥ max_ai_claims
      · have h0 : max_ai_claims - st.processed_count = 0 := by omega
        simp [process_items, if_pos hstop, h0]
      · have hk : max_ai_claims - st.processed_count =
            (max_ai_claims - (st.processed_count + 1)) + 1 := by omega
        simp only [process_items, if_neg hstop]
        split
        next r heq =>
          obtain ⟨ih1, ih2⟩ := ih _
          refine ⟨?_, ?_⟩
          · rw [ih1]
            simp only [List.map_cons, hk, List.take_succ_cons]
            simp [List.append_assoc]
          · rw [ih2]
            simp only [List.length_cons, hk]
            omega
        next heq =>
          split
          next v heq2 =>
            obtain ⟨ih1, ih2⟩ := ih _
            refine ⟨?_, ?_⟩
            · rw [ih1]
              simp only [List.map_cons, hk, List.take_succ_cons]
              simp [List.append_assoc]
            · rw [ih2]
              simp only [List.length_cons, hk]
              omega
          next heq2 =>
            have hs := hsucc
              { error_type := result.error_type
                description := result.description
                severity := result.severity }
              (lookupClaimData claims_data result.claim_id)
            rw [heq2] at hs
            simp at hs

/-- Outer-loop bookkeeping over the batches, under the same success
hypothesis. -/
theorem process_batches_spec (claims_data : List (Int × ClaimData))
    (explainer : Explainer) (max_ai_claims : Nat) (now : ℚ)
    (hsucc : ∀ e c, (explainer e c).isSome) :
    ∀ (batches : List (List ValidationResult)) (st : RunState),
      (process_batches claims_data explainer max_ai_claims now st batches).submitted =
        st.submitted ++
          (batches.flatten.map (·.claim_id)).take
            (max_ai_claims - st.processed_count) := by
  intro batches
  induction batches with
  | nil =>
      intro st
      simp [process_batches]
  | cons batch rest ih =>
      intro st
      obtain ⟨h1, h2⟩ :=
        process_items_spec claims_data explainer max_ai_claims now hsucc batch st
      simp only [process_batches]
      split
      next hstop =>
        rw [h1]
        rw [h2] at hstop
        have hmin : min batch.length (max_ai_claims - st.processed_count) =
            max_ai_claims - st.processed_count := by omega
        have hlen : max_ai_claims - st.processed_count ≤
            (batch.map (·.claim_id)).length := by
          simp
          omega
        rw [List.flatten_cons, List.map_append,
          List.take_append_of_le_length hlen]
      next hstop =>
        rw [ih _, h1, h2]
        rw [h2] at hstop
        have hmin : min batch.length (max_ai_claims - st.processed_count) =
            batch.length := by omega
        have hBlen : (batch.map (·.claim_id)).length ≤
            max_ai_claims - st.processed_count := by
          simp only [List.length_map]
          omega
        rw [List.flatten_cons, List.map_append, List.take_append_eq_append_take,
          List.take_of_length_le hBlen, hmin]
        have harith : max_ai_claims - (st.processed_count + batch.length) =
            max_ai_claims - st.processed_count -
              (batch.map (·.claim_id)).length := by
          simp only [List.length_map]
          omega
        rw [harith, List.append_assoc]

end BatchProcessor

namespace BatchProcessor

/-- With enough fuel, the batches partition the list. -/
theorem chunkList_flatten {α : Type} (b : Nat) (hb : 1 ≤ b) :
    ∀ (fuel : Nat) (l : List α), l.length ≤ fuel →
      (chunkList b fuel l).flatten = l := by
  intro fuel
  induction fuel with
  | zero =>
      intro l hl
      cases l with
      | nil => simp [chunkList]
      | cons x xs => simp at hl
  | succ fuel ih =>
      intro l hl
      cases l with
      | nil => simp [chunkList]
      | cons x xs =>
          simp only [chunkList, List.flatten_cons]
          rw [ih (xs.drop (b - 1)) ?_]
          · rw [List.cons_append, List.take_append_drop]
          · simp only [List.length_drop]
            simp at hl
            omega

/-- The outer loop's batches partition the findings when batch_size ≥ 1. -/
theorem toBatches_flatten {α : Type} (batch_size : Int) (hb : 1 ≤ batch_size)
    (l : List α) : (toBatches batch_size l).flatten = l := by
  unfold toBatches
  rw [if_neg (by omega : ¬batch_size ≤ 0)]
  exact chunkList_flatten batch_size.toNat (by omega) l.length l (le_refl _)

/-- Every claim id sent to the Explainer was first submitted to the cache:
the inner loop preserves containment of the explained log in the
submission log. -/
theorem process_items_explained (claims_data : List (Int × ClaimData))
    (explainer : Explainer) (max_ai_claims : Nat) (now : ℚ) :
    ∀ (items : List ValidationResult) (st : RunState),
      (∀ x ∈ st.explained, x ∈ st.submitted) →
      ∀ x ∈ (process_items claims_data explainer max_ai_claims now st items).explained,
        x ∈ (process_items claims_data explainer max_ai_claims now st items).submitted := by
  intro items
  induction items with
  | nil =>
      intro st h
      simpa [process_items] using h
  | cons result rest ih =>
      intro st h
      by_cases hstop : st.processed_count ≥ max_ai_claims
      · simpa [process_items, if_pos hstop] using h
      · simp only [process_items, if_neg hstop]
        split
        next r heq =>
          apply ih
          intro x hx
          exact List.mem_append_left _ (h x hx)
        next heq =>
          split
          next v heq2 =>
            apply ih
            intro x hx
            rcases List.mem_append.mp hx with hx | hx
            · exact List.mem_append_left _ (h x hx)
            · exact List.mem_append_right _ hx
          next heq2 =>
            apply ih
            intro x hx
            rcases List.mem_append.mp hx with hx | hx
            · exact List.mem_append_left _ (h x hx)
            · exact List.mem_append_right _ hx

/-- The outer loop preserves the same containment. -/
theorem process_batches_explained (claims_data : List (Int × ClaimData))
    (explainer : Explainer) (max_ai_claims : Nat) (now : ℚ) :
    ∀ (batches : List (List ValidationResult)) (st : RunState),
      (∀ x ∈ st.explained, x ∈ st.submitted) →
      ∀ x ∈ (process_batches claims_data explainer max_ai_claims now st batches).explained,
        x ∈ (process_batches claims_data explainer max_ai_claims now st batches).submitted := by
  intro batches
  induction batches with
  | nil =>
      intro st h
      simpa [process_batches] using h
  | cons batch rest ih =>
      intro st h
      simp only [process_batches]
      split
      next hstop =>
        exact process_items_explained claims_data explainer max_ai_claims now
          batch st h
      next hstop =>
        exact ih _ (process_items_explained claims_data explainer max_ai_claims
          now batch st h)

/-- The submission log of a full run is the submission log of the outer
loop started from the fresh run state. -/
theorem process_batch_submitted_eq (bp : BatchProcessor)
    (validation_results : List ValidationResult)
    (claims_data : List (Int × ClaimData)) (explainer : Explainer)
    (max_ai_claims : Nat) (now elapsed_seconds : ℚ) :
    (bp.process_batch_optimized validation_results claims_data explainer
        max_ai_claims now elapsed_seconds).submitted =
      (process_batches claims_data explainer max_ai_claims now
        { ai_explanations := [], processed_count := 0, cache := bp.ai_cache,
          cache_hits := bp.cache_hits, ai_calls := bp.ai_calls,
          submitted := [], explained := [] }
        (toBatches bp.batch_size validation_results)).submitted := rfl

/-- Same for the explained log. -/
theorem process_batch_explained_eq (bp : BatchProcessor)
    (validation_results : List ValidationResult)
    (claims_data : List (Int × ClaimData)) (explainer : Explainer)
    (max_ai_claims : Nat) (now elapsed_seconds : ℚ) :
    (bp.process_batch_optimized validation_results claims_data explainer
        max_ai_claims now elapsed_seconds).explained =
      (process_batches claims_data explainer max_ai_claims now
        { ai_explanations := [], processed_count := 0, cache := bp.ai_cache,
          cache_hits := bp.cache_hits, ai_calls := bp.ai_calls,
          submitted := [], explained := [] }
        (toBatches bp.batch_size validation_results)).explained := rfl

end BatchProcessor

/-- Claim C5 (amended): the batch run submits findings in Validator order,
stopping once maxToProcess results have been recorded; a finding beyond the
first maxToProcess is submitted only in place of an earlier finding whose
Explainer call failed.  In particular, whenever every submission yields a
result (every cache miss gets a successful Explainer call), exactly the
first maxToProcess findings are submitted, in order, and the remaining
findings are untouched — never looked up in the cache, and (since every
Explainer call is preceded by a cache lookup of the same finding) never
sent to the Explainer. -/
theorem C5_theorem (bp : BatchProcessor)
    (validation_results : List ValidationResult)
    (claims_data : List (Int × ClaimData)) (explainer : BatchProcessor.Explainer)
    (max_ai_claims : Nat) (now elapsed_seconds : ℚ)
    (hb : 1 ≤ bp.batch_size)
    (hsucc : ∀ e c, (explainer e c).isSome) :
    (bp.process_batch_optimized validation_results claims_data explainer
        max_ai_claims now elapsed_seconds).submitted =
      (validation_results.map (·.claim_id)).take max_ai_claims ∧
    ∀ x ∈ (bp.process_batch_optimized validation_results claims_data explainer
        max_ai_claims now elapsed_seconds).explained,
      x ∈ (bp.process_batch_optimized validation_results claims_data explainer
        max_ai_claims now elapsed_seconds).submitted := by
  constructor
  · rw [BatchProcessor.process_batch_submitted_eq]
    rw [BatchProcessor.process_batches_spec claims_data explainer max_ai_claims
      now hsucc (BatchProcessor.toBatches bp.batch_size validation_results)]
    rw [BatchProcessor.toBatches_flatten bp.batch_size hb validation_results]
    simp
  · rw [BatchProcessor.process_batch_explained_eq,
      BatchProcessor.process_batch_submitted_eq]
    apply BatchProcessor.process_batches_explained
    intro x hx
    simp at hx

/-- An Explainer that always succeeds. -/
def c5OkExplainer : BatchProcessor.Explainer := fun _ _ => some sampleExplanation

/-- Witness for C5_theorem: three findings, maxToProcess 2, all-success
Explainer — exactly the first two findings are submitted. -/
theorem C5_witness :
    (1 : Int) ≤ (BatchProcessor.init (AICache.init 100 24)).batch_size ∧
    (∀ e c, (c5OkExplainer e c).isSome) ∧
    (((BatchProcessor.init (AICache.init 100 24)).process_batch_optimized
        [sampleFinding 1, sampleFinding 2, sampleFinding 3] [] c5OkExplainer
        2 0 0).submitted =
      ([sampleFinding 1, sampleFinding 2, sampleFinding 3].map
        (·.claim_id)).take 2 ∧
    ∀ x ∈ ((BatchProcessor.init (AICache.init 100 24)).process_batch_optimized
        [sampleFinding 1, sampleFinding 2, sampleFinding 3] [] c5OkExplainer
        2 0 0).explained,
      x ∈ ((BatchProcessor.init (AICache.init 100 24)).process_batch_optimized
        [sampleFinding 1, sampleFinding 2, sampleFinding 3] [] c5OkExplainer
        2 0 0).submitted) :=
  ⟨by norm_num [BatchProcessor.init], fun e c => rfl,
    C5_theorem (BatchProcessor.init (AICache.init 100 24))
      [sampleFinding 1, sampleFinding 2, sampleFinding 3] [] c5OkExplainer
      2 0 0 (by norm_num [BatchProcessor.init]) (fun e c => rfl)⟩

/-! ### C4 — LRU eviction order -/

/-- The cache key an (errorInfo, claimInfo) pair fingerprints to. -/
def keyOf (p : ErrorDict × ClaimData) : CacheKey :=
  AICache._create_cache_key p.1 p.2

/-- Fill phase: put every pair (with payload r) at time 0. -/
def fillCache (pairs : List (ErrorDict × ClaimData)) (r : ExplanationResult)
    (c : AICache) : AICache :=
  pairs.foldl (fun c p => AICache.put c p.1 p.2 r 0) c

/-- Touch phase: get every pair at time 0, keeping only the state. -/
def touchCache (touched : List (ErrorDict × ClaimData)) (c : AICache) :
    AICache :=
  touched.foldl (fun c p => (AICache.get c p.1 p.2 0).2) c

namespace AICache

/-- The LRU list held by a cache after put, unfolded. -/
theorem put_access_order_eq {c : AICache} {ve : ErrorDict} {cd : ClaimData}
    {r : ExplanationResult} {t : ℚ} :
    (put c ve cd r t).access_order =
      (if AICache._create_cache_key ve cd ∈
          (if (c.cache.length : Int) ≥ c.max_size ∧
              (dictGet c.cache (_create_cache_key ve cd)).isNone
           then _evict_lru c else c).access_order
       then listErase
          (if (c.cache.length : Int) ≥ c.max_size ∧
              (dictGet c.cache (_create_cache_key ve cd)).isNone
           then _evict_lru c else c).access_order
          (_create_cache_key ve cd)
       else (if (c.cache.length : Int) ≥ c.max_size ∧
              (dictGet c.cache (_create_cache_key ve cd)).isNone
           then _evict_lru c else c).access_order) ++
        [_create_cache_key ve cd] := rfl

/-- Effect of a put of a fresh key into a cache that is not full: the entry
is appended to the dict and the key to the LRU list; no eviction runs. -/
theorem put_fresh_effect {c : AICache} {ve : ErrorDict} {cd : ClaimData}
    {r : ExplanationResult} {t : ℚ} (hwf : WF c)
    (hmem : _create_cache_key ve cd ∉ c.cache.map Prod.fst)
    (hlen : (c.cache.length : Int) < c.max_size) :
    (put c ve cd r t).cache =
      c.cache ++ [(_create_cache_key ve cd,
        { result := r, timestamp := t, hit_count := 0,
          cache_key := _create_cache_key ve cd })] ∧
    (put c ve cd r t).access_order =
      c.access_order ++ [_create_cache_key ve cd] ∧
    (put c ve cd r t).evictions = c.evictions := by
  have hcond : ¬((c.cache.length : Int) ≥ c.max_size ∧
      (dictGet c.cache (_create_cache_key ve cd)).isNone) := by
    rintro ⟨h1, -⟩
    omega
  have hao : _create_cache_key ve cd ∉ c.access_order :=
    fun hx => hmem ((hwf.2.2 _).mpr hx)
  refine ⟨?_, ?_, ?_⟩
  · rw [put_cache_eq, if_neg hcond, dictSet_of_not_mem hmem]
  · rw [put_access_order_eq]
    rw [if_neg hcond]
    rw [if_neg hao]
  · rw [put_evictions_eq, if_neg hcond]

/-- Effect of a get that hits a fresh entry: key set unchanged, the key is
moved to the most-recently-used end of the LRU list, no eviction, and every
surviving entry either keeps the hit entry's timestamp or was already
present. -/
theorem get_hit_effect {c : AICache} {ve : ErrorDict} {cd : ClaimData}
    {t : ℚ} {entry : CacheEntry}
    (hfind : dictGet c.cache (_create_cache_key ve cd) = some entry)
    (hfresh : t - entry.timestamp < (c.ttl_seconds : ℚ)) :
    (get c ve cd t).2.cache.map Prod.fst = c.cache.map Prod.fst ∧
    (get c ve cd t).2.access_order =
      (if _create_cache_key ve cd ∈ c.access_order
       then listErase c.access_order (_create_cache_key ve cd)
       else c.access_order) ++ [_create_cache_key ve cd] ∧
    (get c ve cd t).2.evictions = c.evictions ∧
    (∀ e ∈ (get c ve cd t).2.cache,
      e.2.timestamp = entry.timestamp ∨ e ∈ c.cache) := by
  have hmem : _create_cache_key ve cd ∈ c.cache.map Prod.fst :=
    dictGet_isSome_iff.mp (by simp [hfind])
  simp only [get, hfind, if_pos hfresh]
  refine ⟨dictSet_keys_of_mem hmem, rfl, rfl, ?_⟩
  intro e he
  rcases mem_dictSet he with he' | he'
  · left
    rw [he']
  · right
    exact he'

end AICache

/-- Fill-phase bookkeeping: putting a nodup run of fresh keys into a cache
with enough headroom appends the entries (all stamped at time 0) in order
to the dict and to the LRU list, with no eviction. -/
theorem fill_spec (r : ExplanationResult) :
    ∀ (pairs : List (ErrorDict × ClaimData)) (c : AICache),
      AICache.WF c →
      (pairs.map keyOf).Nodup →
      (∀ p ∈ pairs, keyOf p ∉ c.cache.map Prod.fst) →
      ((c.cache.length : Int) + pairs.length ≤ c.max_size) →
      (fillCache pairs r c).cache.map Prod.fst =
          c.cache.map Prod.fst ++ pairs.map keyOf ∧
      (fillCache pairs r c).access_order =
          c.access_order ++ pairs.map keyOf ∧
      (fillCache pairs r c).evictions = c.evictions ∧
      (∀ e ∈ (fillCache pairs r c).cache, e ∈ c.cache ∨ e.2.timestamp = 0) ∧
      (fillCache pairs r c).max_size = c.max_size ∧
      (fillCache pairs r c).ttl_seconds = c.ttl_seconds ∧
      AICache.WF (fillCache pairs r c) := by
  intro pairs
  induction pairs with
  | nil =>
      intro c hwf hnd hfresh hlen
      refine ⟨by simp [fillCache], by simp [fillCache], rfl, ?_, rfl, rfl, hwf⟩
      intro e he
      exact Or.inl he
  | cons p rest ih =>
      intro c hwf hnd hfresh hlen
      have hk : keyOf p ∉ c.cache.map Prod.fst := hfresh p (List.mem_cons_self _ _)
      have hklen : (c.cache.length : Int) < c.max_size := by
        simp only [List.length_cons] at hlen
        omega
      obtain ⟨hc1, hao1, hev1⟩ :=
        AICache.put_fresh_effect (r := r) (t := 0) hwf hk hklen
      have hwf1 : AICache.WF (AICache.put c p.1 p.2 r 0) := AICache.WF_put hwf
      have hkeys1 : (AICache.put c p.1 p.2 r 0).cache.map Prod.fst =
          c.cache.map Prod.fst ++ [keyOf p] := by
        rw [hc1]
        simp [keyOf]
      simp only [List.map_cons, List.nodup_cons] at hnd
      have hfresh1 : ∀ q ∈ rest,
          keyOf q ∉ (AICache.put c p.1 p.2 r 0).cache.map Prod.fst := by
        intro q hq
        rw [hkeys1]
        simp only [List.mem_append, List.mem_singleton]
        rintro (hx | hx)
        · exact hfresh q (List.mem_cons_of_mem _ hq) hx
        · exact hnd.1 (hx ▸ List.mem_map_of_mem keyOf hq)
      have hlen1 : (((AICache.put c p.1 p.2 r 0).cache.length : Int) +
          rest.length ≤ (AICache.put c p.1 p.2 r 0).max_size) := by
        rw [AICache.put_max_size, hc1]
        simp only [List.length_append, List.length_singleton]
        simp only [List.length_cons] at hlen
        push_cast
        push_cast at hlen
        omega
      obtain ⟨g1, g2, g3, g4, g5, g6, g7⟩ := ih _ hwf1 hnd.2 hfresh1 hlen1
      have hfc : fillCache (p :: rest) r c =
          fillCache rest r (AICache.put c p.1 p.2 r 0) := rfl
      rw [hfc]
      refine ⟨?_, ?_, ?_, ?_, ?_, ?_, g7⟩
      · rw [g1, hkeys1]
        simp
      · rw [g2, hao1]
        simp [keyOf]
      · rw [g3, hev1]
      · intro e he
        rcases g4 e he with he' | he'
        · rw [hc1] at he'
          rcases List.mem_append.mp he' with he'' | he''
          · exact Or.inl he''
          · simp only [List.mem_singleton] at he''
            right
            rw [he'']
        · exact Or.inr he'
      · rw [g5, AICache.put_max_size]
      · rw [g6, AICache.put_ttl]

/-- Touch-phase bookkeeping: getting a nodup run of present, fresh keys
leaves the entry set (and all timestamps) unchanged and moves exactly the
touched keys, in touch order, to the most-recently-used end of the LRU
list; untouched keys keep their relative order in front. -/
theorem touch_spec (K : List CacheKey) (hK : K.Nodup) :
    ∀ (touched : List (ErrorDict × ClaimData)) (done : List CacheKey)
      (c : AICache),
      c.cache.map Prod.fst = K →
      c.access_order = K.filter (fun x => decide (x ∉ done)) ++ done →
      (∀ e ∈ c.cache, e.2.timestamp = 0) →
      0 < c.ttl_seconds →
      (touched.map keyOf).Nodup →
      (∀ p ∈ touched, keyOf p ∈ K) →
      (∀ p ∈ touched, keyOf p ∉ done) →
      (touchCache touched c).cache.map Prod.fst = K ∧
      (touchCache touched c).access_order =
        K.filter (fun x => decide (x ∉ done ++ touched.map keyOf)) ++
          (done ++ touched.map keyOf) ∧
      (∀ e ∈ (touchCache touched c).cache, e.2.timestamp = 0) ∧
      (touchCache touched c).evictions = c.evictions ∧
      (touchCache touched c).max_size = c.max_size ∧
      (touchCache touched c).ttl_seconds = c.ttl_seconds := by
  intro touched
  induction touched with
  | nil =>
      intro done c h1 h2 h3 h4 h5 h6 h7
      refine ⟨h1, ?_, h3, rfl, rfl, rfl⟩
      simpa [touchCache] using h2
  | cons p rest ih =>
      intro done c h1 h2 h3 h4 h5 h6 h7
      have hkeyeq : AICache._create_cache_key p.1 p.2 = keyOf p := rfl
      have hkK : keyOf p ∈ K := h6 p (List.mem_cons_self _ _)
      have hkdone : keyOf p ∉ done := h7 p (List.mem_cons_self _ _)
      have hmem : keyOf p ∈ c.cache.map Prod.fst := by
        rw [h1]
        exact hkK
      have hsome : (dictGet c.cache (keyOf p)).isSome :=
        dictGet_isSome_iff.mpr hmem
      obtain ⟨entry, hfind⟩ := Option.isSome_iff_exists.mp hsome
      have hts : entry.timestamp = 0 := by
        have := h3 (keyOf p, entry) (mem_of_dictGet_eq_some hfind)
        simpa using this
      have hfresh : (0 : ℚ) - entry.timestamp < (c.ttl_seconds : ℚ) := by
        rw [hts]
        simp
        exact_mod_cast h4
      obtain ⟨g1, g2, g3, g4⟩ := AICache.get_hit_effect (t := 0) hfind hfresh
      have hkfilter : keyOf p ∈ K.filter (fun x => decide (x ∉ done)) :=
        List.mem_filter.mpr ⟨hkK, by simpa using hkdone⟩
      have hkao : keyOf p ∈ c.access_order := by
        rw [h2]
        exact List.mem_append_left _ hkfilter
      have hao2 : (AICache.get c p.1 p.2 0).2.access_order =
          K.filter (fun x => decide (x ∉ (done ++ [keyOf p]))) ++
            (done ++ [keyOf p]) := by
        rw [g2]
        simp only [hkeyeq]
        rw [if_pos hkao, h2, listErase_append_left hkfilter,
          listErase_filter _ hK, List.append_assoc]
        congr 1
        apply List.filter_congr
        intro x hx
        simp [List.mem_append, not_or, Decidable.imp_iff_not_or]
      have hg1' : (AICache.get c p.1 p.2 0).2.cache.map Prod.fst = K := by
        rw [g1, h1]
      have hts2 : ∀ e ∈ (AICache.get c p.1 p.2 0).2.cache,
          e.2.timestamp = 0 := by
        intro e he
        rcases g4 e he with h | h
        · rw [h, hts]
        · exact h3 e h
      have httl2 : 0 < (AICache.get c p.1 p.2 0).2.ttl_seconds := by
        rw [AICache.get_ttl]
        exact h4
      simp only [List.map_cons, List.nodup_cons] at h5
      have h62 : ∀ q ∈ rest, keyOf q ∈ K := fun q hq =>
        h6 q (List.mem_cons_of_mem _ hq)
      have h72 : ∀ q ∈ rest, keyOf q ∉ done ++ [keyOf p] := by
        intro q hq
        simp only [List.mem_append, List.mem_singleton, not_or]
        exact ⟨h7 q (List.mem_cons_of_mem _ hq),
          fun he => h5.1 (he ▸ List.mem_map_of_mem keyOf hq)⟩
      obtain ⟨f1, f2, f3, f4, f5, f6⟩ :=
        ih (done ++ [keyOf p]) _ hg1' hao2 hts2 httl2 h5.2 h62 h72
      have hstep : touchCache (p :: rest) c =
          touchCache rest (AICache.get c p.1 p.2 0).2 := rfl
      rw [hstep]
      have heq : (done ++ [keyOf p]) ++ rest.map keyOf =
          done ++ (keyOf p :: rest.map keyOf) := by
        simp
      refine ⟨f1, ?_, f3, ?_, ?_, ?_⟩
      · rw [f2]
        simp only [heq, List.map_cons]
      · rw [f4, g3]
      · rw [f5, AICache.get_max_size]
      · rw [f6, AICache.get_ttl]

/-- A nodup list filtered by a predicate that holds exactly at one of its
members collapses to that singleton. -/
theorem filter_eq_singleton {K : List CacheKey} {kj : CacheKey}
    (p : CacheKey → Bool) (hK : K.Nodup) (hj : kj ∈ K)
    (hp : ∀ x ∈ K, (p x = true ↔ x = kj)) : K.filter p = [kj] := by
  induction K with
  | nil => simp at hj
  | cons x rest ih =>
      rw [List.nodup_cons] at hK
      rcases List.mem_cons.mp hj with hx | hx
      · subst hx
        have hpx : p kj = true := (hp kj (List.mem_cons_self _ _)).mpr rfl
        rw [List.filter_cons_of_pos hpx]
        have hnil : rest.filter p = [] := by
          rw [List.filter_eq_nil_iff]
          intro a ha hpa
          have := (hp a (List.mem_cons_of_mem _ ha)).mp hpa
          exact hK.1 (this ▸ ha)
        rw [hnil]
      · have hxne : x ≠ kj := fun he => hK.1 (he ▸ hx)
        have hpx : ¬p x = true := fun hpa =>
          hxne ((hp x (List.mem_cons_self _ _)).mp hpa)
        rw [List.filter_cons_of_neg hpx]
        exact ih hK.2 hx (fun y hy => hp y (List.mem_cons_of_mem _ hy))

/-- Claim C4: the entry evicted when a full cache receives a put of a new
distinct key is exactly the least-recently-touched one.  Concretely: fill a
fresh cache of capacity n with n distinct keys (time 0), touch every entry
except one via get, then put one new distinct key — the resulting dict
holds exactly the old keys minus the untouched one (in order) plus the new
key, exactly one eviction is counted, and the cache is full again. -/
theorem C4_theorem
    (pairs touched : List (ErrorDict × ClaimData))
    (pj pnew : ErrorDict × ClaimData)
    (r0 r1 : ExplanationResult) (ttl_hours : Int)
    (httl : 0 < ttl_hours)
    (hK : (pairs.map keyOf).Nodup)
    (hj : keyOf pj ∈ pairs.map keyOf)
    (hT : (touched.map keyOf).Nodup)
    (hTK : ∀ k ∈ touched.map keyOf, k ∈ pairs.map keyOf ∧ k ≠ keyOf pj)
    (hKT : ∀ k ∈ pairs.map keyOf, k ≠ keyOf pj → k ∈ touched.map keyOf)
    (hnew : keyOf pnew ∉ pairs.map keyOf) :
    let cfill := fillCache pairs r0 (AICache.init pairs.length ttl_hours)
    let cfinal := AICache.put (touchCache touched cfill) pnew.1 pnew.2 r1 0
    cfinal.cache.map Prod.fst =
      listErase (pairs.map keyOf) (keyOf pj) ++ [keyOf pnew] ∧
    keyOf pj ∉ cfinal.cache.map Prod.fst ∧
    keyOf pnew ∈ cfinal.cache.map Prod.fst ∧
    (∀ k ∈ pairs.map keyOf, k ≠ keyOf pj → k ∈ cfinal.cache.map Prod.fst) ∧
    cfinal.evictions = 1 ∧
    cfinal.cache.length = pairs.length := by
  intro cfill cfinal
  set K := pairs.map keyOf with hKdef
  set T := touched.map keyOf with hTdef
  -- Fill phase.
  obtain ⟨a1, a2, a3, a4, a5, a6, a7⟩ :=
    fill_spec r0 pairs (AICache.init pairs.length ttl_hours)
      (AICache.WF_init _ _) hK
      (by intro p hp; simp [AICache.init])
      (by simp [AICache.init])
  have a1' : cfill.cache.map Prod.fst = K := by
    rw [hKdef]
    simpa [AICache.init] using a1
  have a2' : cfill.access_order = K := by
    rw [hKdef]
    simpa [AICache.init] using a2
  have a3' : cfill.evictions = 0 := by
    simpa [AICache.init] using a3
  have hts : ∀ e ∈ cfill.cache, e.2.timestamp = 0 := by
    intro e he
    rcases a4 e he with h | h
    · simp [AICache.init] at h
    · exact h
  have a5' : cfill.max_size = (pairs.length : Int) := by
    simpa [AICache.init] using a5
  have httl2 : 0 < cfill.ttl_seconds := by
    have a6' : cfill.ttl_seconds = ttl_hours * 3600 := by
      simpa [AICache.init] using a6
    rw [a6']
    omega
  -- Touch phase.
  obtain ⟨b1, b2, b3, b4, b5, b6⟩ :=
    touch_spec K hK touched [] cfill a1'
      (by rw [a2']; simp)
      hts httl2 hT
      (fun p hp => (hTK _ (List.mem_map_of_mem keyOf hp)).1)
      (by simp)
  have hsing : K.filter (fun x => decide (x ∉ T)) = [keyOf pj] := by
    apply filter_eq_singleton _ hK hj
    intro x hx
    simp only [decide_eq_true_eq]
    constructor
    · intro hxT
      by_contra hne
      exact hxT (hKT x hx hne)
    · rintro rfl
      intro hmemT
      exact (hTK _ hmemT).2 rfl
  have b2' : (touchCache touched cfill).access_order = keyOf pj :: T := by
    simp only [List.nil_append, ← hTdef] at b2
    rw [b2, hsing]
    rfl
  -- Final put.
  have hkeyeq : AICache._create_cache_key pnew.1 pnew.2 = keyOf pnew := rfl
  have hjsome : (dictGet (touchCache touched cfill).cache (keyOf pj)).isSome :=
    dictGet_isSome_iff.mpr (by rw [b1]; exact hj)
  have hlen_eq : (touchCache touched cfill).cache.length = pairs.length := by
    have := congrArg List.length b1
    simpa [hKdef] using this
  have hcond : (((touchCache touched cfill).cache.length : Int) ≥
      (touchCache touched cfill).max_size ∧
      (dictGet (touchCache touched cfill).cache
        (AICache._create_cache_key pnew.1 pnew.2)).isNone) := by
    constructor
    · rw [hlen_eq, b5, a5']
    · rw [hkeyeq, Option.isNone_iff_eq_none, dictGet_eq_none_iff, b1]
      exact hnew
  have hevcache : (AICache._evict_lru (touchCache touched cfill)).cache =
      dictErase (touchCache touched cfill).cache (keyOf pj) := by
    simp [AICache._evict_lru, b2', AICache._remove_entry, hjsome]
  have hevkeys : (AICache._evict_lru (touchCache touched cfill)).cache.map
      Prod.fst = listErase K (keyOf pj) := by
    rw [hevcache, dictErase_keys, b1]
  have hevev : (AICache._evict_lru (touchCache touched cfill)).evictions =
      (touchCache touched cfill).evictions + 1 := by
    simp [AICache._evict_lru, b2', AICache._remove_entry]
  have hnewnot : AICache._create_cache_key pnew.1 pnew.2 ∉
      (AICache._evict_lru (touchCache touched cfill)).cache.map Prod.fst := by
    rw [hkeyeq, hevkeys]
    intro hx
    exact hnew (mem_of_mem_listErase hx)
  have hfinalcache : cfinal.cache.map Prod.fst =
      listErase K (keyOf pj) ++ [keyOf pnew] := by
    show (AICache.put (touchCache touched cfill) pnew.1 pnew.2 r1 0).cache.map
      Prod.fst = _
    rw [AICache.put_cache_eq, if_pos hcond, dictSet_of_not_mem hnewnot]
    rw [List.map_append, hevkeys]
    simp [hkeyeq]
  refine ⟨hfinalcache, ?_, ?_, ?_, ?_, ?_⟩
  · rw [hfinalcache]
    simp only [List.mem_append, List.mem_singleton, not_or]
    constructor
    · exact not_mem_listErase_self hK
    · intro he
      exact hnew (he ▸ hj)
  · rw [hfinalcache]
    simp
  · intro k hk hne
    rw [hfinalcache]
    exact List.mem_append_left _ (mem_listErase_of_ne hk hne)
  · show (AICache.put (touchCache touched cfill) pnew.1 pnew.2 r1 0).evictions = 1
    rw [put_evictions_eq, if_pos hcond, hevev, b4, a3']
  · have hlist := congrArg List.length hfinalcache
    simp only [List.length_map, List.length_append, List.length_singleton] at hlist
    have herase : (listErase K (keyOf pj)).length + 1 = K.length :=
      length_listErase_of_mem hj
    rw [hlist, hKdef] at *
    simp only [List.length_map] at herase ⊢
    omega

/-- Witness for C4_theorem: capacity 3, keys 0,1,2 inserted, keys 1 and 2
touched, key 3 inserted — exactly key 0 is evicted. -/
theorem C4_witness :
    let pairs : List (ErrorDict × ClaimData) :=
      [(sampleError 0, {}), (sampleError 1, {}), (sampleError 2, {})]
    let touched : List (ErrorDict × ClaimData) :=
      [(sampleError 1, {}), (sampleError 2, {})]
    let pj : ErrorDict × ClaimData := (sampleError 0, {})
    let pnew : ErrorDict × ClaimData := (sampleError 3, {})
    let cfill := fillCache pairs sampleExplanation (AICache.init pairs.length 24)
    let cfinal :=
      AICache.put (touchCache touched cfill) pnew.1 pnew.2 sampleExplanation 0
    cfinal.cache.map Prod.fst =
      listErase (pairs.map keyOf) (keyOf pj) ++ [keyOf pnew] ∧
    keyOf pj ∉ cfinal.cache.map Prod.fst ∧
    keyOf pnew ∈ cfinal.cache.map Prod.fst ∧
    (∀ k ∈ pairs.map keyOf, k ≠ keyOf pj → k ∈ cfinal.cache.map Prod.fst) ∧
    cfinal.evictions = 1 ∧
    cfinal.cache.length = pairs.length :=
  C4_theorem
    [(sampleError 0, {}), (sampleError 1, {}), (sampleError 2, {})]
    [(sampleError 1, {}), (sampleError 2, {})]
    (sampleError 0, {}) (sampleError 3, {})
    sampleExplanation sampleExplanation 24
    (by norm_num) (by decide) (by decide) (by decide) (by decide) (by decide)
    (by decide)
